import Mathlib

/-!
Verification of the alpha-beta search core of a Connect-Four engine
(`src/player/base.py`).  The board rule engine is an external capability of
the program (it lives outside the searched sources); it is modelled here from
the spec as an abstract structure of operations `GameOps`, plus one concrete
instance (a 7x6 gravity board with four-in-a-line win detection) used for
concrete evaluations.

The search itself (`AlphaBetaPlayer.min` / `AlphaBetaPlayer.max` /
`AlphaBetaPlayer.next_move_timeout`, the iterative deepening driver
`TimedPlayer.next_move`, the randomizer `RandomizedAlphaBetaPlayer.random_order`
and the cache decorator `HashedPlayer.min` / `HashedPlayer.max`) is translated
from the Python source.  Python's in-place board mutation is rendered
functionally: `place_stone` returns `Option board` (`none` = illegal move,
the board is unchanged; `some b` = the mutated clone).  Wall-clock time is
rendered as an explicit stream `clock : Nat -> Rat` of readings consumed one
per `time.time()` call, and `raise TimeoutError` as `Except Unit`.
-/

/-- Modelled from the spec: "Color: one of two values identifying a side". -/
inductive Color : Type
  | white
  | black
deriving DecidableEq, Repr

/-- Modelled from the spec: the board operation `other_player(color)` returns
the other of the two colors. -/
def Color.other : Color → Color
  | .white => .black
  | .black => .white

/-- Modelled from the spec: the external "Board capability" consumed by the
search core.  `placeStone b pos c = some b'` models `clone.place_stone(pos, c)`
returning `True` with `b'` the mutated clone; `none` models an illegal move
(the board is left unchanged).  `hasWon`, `rows`, `cols` model
`has_won(color)`, `ROWS`, `COLS`.  `score` models the abstract leaf-evaluation
hook `score(board, depth)` of the player (an unimplemented extension point in
the source). -/
structure GameOps (β : Type) where
  placeStone : β → Nat → Color → Option β
  hasWon : β → Color → Bool
  score : β → Int → Int
  rows : Nat
  cols : Nat

namespace AlphaBetaPlayer

/-- Source constant `AlphaBetaPlayer.WIN_SCORE = 1000`. -/
def WIN_SCORE : Int := 1000

/-- Source constant `AlphaBetaPlayer.ALPHA_INIT = -0xfffffff0`. -/
def ALPHA_INIT : Int := -0xfffffff0

/-- Source constant `AlphaBetaPlayer.BETA_INIT = 0xfffffff0`. -/
def BETA_INIT : Int := 0xfffffff0

/-- Source constant `AlphaBetaPlayer.POSITION_ORDER = [3, 2, 4, 5, 1, 0, 6]`. -/
def POSITION_ORDER : List Nat := [3, 2, 4, 5, 1, 0, 6]

variable {β : Type}

mutual

/-- Translation of `AlphaBetaPlayer.min` specialised to runs in which the
deadline never expires, so the `timeout < time.time()` branch is dead (the
full timed translation is `minT` below, and `minT_eq_minP` proves this
specialisation sound).  `me` is `self.color`, `order` is `self.POSITION_ORDER`
as currently set. -/
def minP (G : GameOps β) (me : Color) (order : List Nat)
    (gb : β) (depth : Int) (alpha beta : Int) : Int :=
  if G.hasWon gb me then WIN_SCORE * (depth + 1)
  else if h : depth ≤ 0 then G.score gb depth
  else minGoP G me order gb depth (by omega) alpha beta order
termination_by (depth.toNat, order.length + 1)

/-- The `for pos in self.POSITION_ORDER` loop of `AlphaBetaPlayer.min`:
successive successful placements of the opponent's stone on a fresh clone,
lowering `beta`, with the `alpha >= beta` pruning cutoff.  The loop is only
entered when `depth > 0`; the proof argument records this for termination. -/
def minGoP (G : GameOps β) (me : Color) (order : List Nat)
    (gb : β) (depth : Int) (hd : 0 < depth) (alpha beta : Int)
    (l : List Nat) : Int :=
  match l with
  | [] => beta
  | pos :: rest =>
    match G.placeStone gb pos (Color.other me) with
    | none => minGoP G me order gb depth hd alpha beta rest
    | some clone =>
      let score := maxP G me order clone (depth - 1) alpha beta
      let beta' := if score < beta then score else beta
      if alpha ≥ beta' then beta'
      else minGoP G me order gb depth hd alpha beta' rest
termination_by (depth.toNat, l.length)

/-- Translation of `AlphaBetaPlayer.max` specialised to runs in which the
deadline never expires (cf. `minP`). -/
def maxP (G : GameOps β) (me : Color) (order : List Nat)
    (gb : β) (depth : Int) (alpha beta : Int) : Int :=
  if G.hasWon gb (Color.other me) then -(WIN_SCORE * (depth + 1))
  else if h : depth ≤ 0 then G.score gb depth
  else maxGoP G me order gb depth (by omega) alpha beta order
termination_by (depth.toNat, order.length + 1)

/-- The `for pos in self.POSITION_ORDER` loop of `AlphaBetaPlayer.max`. -/
def maxGoP (G : GameOps β) (me : Color) (order : List Nat)
    (gb : β) (depth : Int) (hd : 0 < depth) (alpha beta : Int)
    (l : List Nat) : Int :=
  match l with
  | [] => alpha
  | pos :: rest =>
    match G.placeStone gb pos me with
    | none => maxGoP G me order gb depth hd alpha beta rest
    | some clone =>
      let score := minP G me order clone (depth - 1) alpha beta
      let alpha' := if score > alpha then score else alpha
      if alpha' ≥ beta then alpha'
      else maxGoP G me order gb depth hd alpha' beta rest
termination_by (depth.toNat, l.length)

end

/-- The `for pos in self.POSITION_ORDER` loop of
`AlphaBetaPlayer.next_move_timeout`: `beta` stays at `BETA_INIT` throughout,
`alpha` and `bestMove` are updated on strict improvement.  `bestMove` is an
`Int` because the sentinel is `-1`. -/
def rootGoP (G : GameOps β) (me : Color) (order : List Nat)
    (gb : β) (depth : Int) (alpha : Int) (bestMove : Int) :
    List Nat → Int
  | [] => bestMove
  | pos :: rest =>
    match G.placeStone gb pos me with
    | none => rootGoP G me order gb depth alpha bestMove rest
    | some clone =>
      let score := minP G me order clone (depth - 1) alpha BETA_INIT
      if score > alpha then rootGoP G me order gb depth score (pos : Int) rest
      else rootGoP G me order gb depth alpha bestMove rest

/-- Translation of `AlphaBetaPlayer.next_move_timeout` specialised to runs in
which the deadline never expires (the deadline is only consulted inside
`min`; cf. `minP`).  The searching player is `player = self.color`; each
iteration places on a fresh clone of `gb`. -/
def next_move_timeoutP (G : GameOps β) (me : Color) (order : List Nat)
    (gb : β) (depth : Int) : Int :=
  rootGoP G me order gb depth ALPHA_INIT (-1) order

end AlphaBetaPlayer

namespace RandomizedAlphaBetaPlayer

/-- Source constant `RandomizedAlphaBetaPlayer.POSITION_ORDER_BASE`. -/
def POSITION_ORDER_BASE : List Nat := [3, 2, 4, 5, 1, 0, 6]

/-- Source constant `RandomizedAlphaBetaPlayer.RANDOMNESS = .3` (the float is
rendered as the exact rational). -/
def RANDOMNESS : ℚ := 3 / 10

/-- The swap loop of `RandomizedAlphaBetaPlayer.random_order`: for each index
`i` from the front, if the next pseudo-random draw is `< RANDOMNESS`, swap the
elements at `i` and `i+1` of the current working list and continue from `i+1`.
`draws` holds the successive values of `random.random()`; the loop makes
`len(POSITION_ORDER_BASE) - 1` draws, one per adjacent index pair. -/
def swapPass (draws : List ℚ) (l : List Nat) : List Nat :=
  match draws, l with
  | q :: qs, x :: y :: t =>
    if q < RANDOMNESS then y :: swapPass qs (x :: t)
    else x :: swapPass qs (y :: t)
  | _, l => l

/-- Translation of `RandomizedAlphaBetaPlayer.random_order`: reset the working
position order to `POSITION_ORDER_BASE`, then run the randomized adjacent-swap
pass.  The result is the new value of `self.POSITION_ORDER`.  `draws` are the
six values `random.random()` returns during the pass. -/
def random_order (draws : List ℚ) : List Nat :=
  swapPass (draws.take (POSITION_ORDER_BASE.length - 1)) POSITION_ORDER_BASE

end RandomizedAlphaBetaPlayer

/-! The concrete board: a 7-column, 6-row gravity board.  This is modelled
from the spec (the rule engine itself is not among the analysed sources):
"a two-player, zero-sum, perfect-information board game (a Connect-Four
variant)", columns indexed `0..6`, a stone dropped in a column rests on top
of that column's stack, a column with 6 stones is full (placing there is
illegal), and a side has won when four of its stones are aligned
horizontally, vertically or diagonally.  The leaf-evaluation hook stays a
parameter `sc`. -/

/-- A 7x6 board: one bottom-first stack of stones per column. -/
structure Board : Type where
  cols : List (List Color)
deriving DecidableEq, Repr

namespace Board

/-- The stone at column `c`, row `r` (row 0 at the bottom), if any. -/
def cell (b : Board) (c r : Nat) : Option Color :=
  (b.cols.getD c []).get? r

/-- Drop a stone of color `col` in column `c`: legal iff `c < 7` and the
column holds fewer than 6 stones. -/
def place (b : Board) (c : Nat) (col : Color) : Option Board :=
  if c < 7 ∧ (b.cols.getD c []).length < 6 then
    some ⟨b.cols.set c ((b.cols.getD c []) ++ [col])⟩
  else none

/-- The cells of the 69 four-in-a-line windows (horizontal, vertical, and the
two diagonal families) of a 7x6 grid. -/
def winLines : List (List (Nat × Nat)) :=
  ((List.range 4).flatMap fun c => (List.range 6).map fun r =>
      (List.range 4).map fun i => (c + i, r))
    ++ ((List.range 7).flatMap fun c => (List.range 3).map fun r =>
      (List.range 4).map fun i => (c, r + i))
    ++ ((List.range 4).flatMap fun c => (List.range 3).map fun r =>
      (List.range 4).map fun i => (c + i, r + i))
    ++ ((List.range 4).flatMap fun c => (List.range 3).map fun r =>
      (List.range 4).map fun i => (c + i, r + 3 - i))

/-- Has color `col` four in a line? -/
def hasWon (b : Board) (col : Color) : Bool :=
  winLines.any fun w => w.all fun p => b.cell p.1 p.2 == some col

/-- The empty 7x6 board. -/
def empty : Board := ⟨List.replicate 7 []⟩

end Board

/-- The modelled board engine packaged as the `GameOps` capability, with the
leaf-evaluation hook `sc` as a parameter (it is an unimplemented extension
point in the source). -/
def connect4 (sc : Board → Int → Int) : GameOps Board where
  placeStone := Board.place
  hasWon := Board.hasWon
  score := sc
  rows := 6
  cols := 7

/-! Boards used for concrete evaluations.  `fullDrawn` is a completely full
7x6 board with no four-in-a-line for either side (the cell at column `c`,
row `r` is white iff `(c + 2r) mod 4 < 2`; every line of four in any
direction mixes both colors).  `b40` is `fullDrawn` with the top two cells
of column 6 removed: exactly one legal column remains, with room for exactly
two stones.  `b41` and `b42` refill those two cells in the order black then
white (matching `fullDrawn`). -/

/-- A full, drawn 7x6 board (no winner). -/
def fullDrawn : Board :=
  ⟨(List.range 7).map fun c => (List.range 6).map fun r =>
    if (c + 2 * r) % 4 < 2 then Color.white else Color.black⟩

/-- The drawn board with the top two cells of column 6 vacant. -/
def b40 : Board :=
  ⟨(List.range 7).map fun c => ((List.range 6).map fun r =>
    if (c + 2 * r) % 4 < 2 then Color.white else Color.black).take
      (if c = 6 then 4 else 6)⟩

/-- Black (the searching player below) has filled column 6, row 4. -/
def b41 : Board :=
  ⟨(List.range 7).map fun c => ((List.range 6).map fun r =>
    if (c + 2 * r) % 4 < 2 then Color.white else Color.black).take
      (if c = 6 then 5 else 6)⟩

namespace Minimax

open AlphaBetaPlayer

variable {β : Type}

mutual

/-- Modelled from the spec: the value of "an exhaustive minimax search of the
same game tree to the same depth using the same terminal-win scores and the
same leaf evaluation" (spec, Testable Properties), minimizing step.  It is the
same recursion as `AlphaBetaPlayer.min` but with no alpha-beta window and no
pruning: the minimum over all legal successors, starting from the `BETA_INIT`
sentinel (the "effectively +infinity" of the spec) for positions with no legal
successor. -/
def mmin (G : GameOps β) (me : Color) (order : List Nat)
    (gb : β) (depth : Int) : Int :=
  if G.hasWon gb me then WIN_SCORE * (depth + 1)
  else if h : depth ≤ 0 then G.score gb depth
  else mminGo G me order gb depth (by omega) order
termination_by (depth.toNat, order.length + 1)
decreasing_by omega

/-- Minimum of `mmax` over the legal successors in `l` (`BETA_INIT` when there
is none). -/
def mminGo (G : GameOps β) (me : Color) (order : List Nat)
    (gb : β) (depth : Int) (hd : 0 < depth) (l : List Nat) : Int :=
  match l with
  | [] => BETA_INIT
  | pos :: rest =>
    match G.placeStone gb pos (Color.other me) with
    | none => mminGo G me order gb depth hd rest
    | some clone =>
      Min.min (mmax G me order clone (depth - 1))
        (mminGo G me order gb depth hd rest)
termination_by (depth.toNat, l.length)
decreasing_by all_goals simp_wf; omega

/-- Modelled from the spec: exhaustive minimax, maximizing step (cf. `mmin`);
the maximum over all legal successors, starting from the `ALPHA_INIT`
sentinel. -/
def mmax (G : GameOps β) (me : Color) (order : List Nat)
    (gb : β) (depth : Int) : Int :=
  if G.hasWon gb (Color.other me) then -(WIN_SCORE * (depth + 1))
  else if h : depth ≤ 0 then G.score gb depth
  else mmaxGo G me order gb depth (by omega) order
termination_by (depth.toNat, order.length + 1)
decreasing_by omega

/-- Maximum of `mmin` over the legal successors in `l` (`ALPHA_INIT` when
there is none). -/
def mmaxGo (G : GameOps β) (me : Color) (order : List Nat)
    (gb : β) (depth : Int) (hd : 0 < depth) (l : List Nat) : Int :=
  match l with
  | [] => ALPHA_INIT
  | pos :: rest =>
    match G.placeStone gb pos me with
    | none => mmaxGo G me order gb depth hd rest
    | some clone =>
      Max.max (mmin G me order clone (depth - 1))
        (mmaxGo G me order gb depth hd rest)
termination_by (depth.toNat, l.length)
decreasing_by all_goals simp_wf; omega

end

end Minimax

namespace AlphaBetaPlayer

variable {β : Type}

/-! The full timed translation.  `clock : Nat -> Rat` is the stream of values
successive `time.time()` calls return (one reading is consumed exactly where
the source calls `time.time()`, i.e. in the `elif timeout < time.time()`
guard); `t` is the index of the next unread value; `timeout` is the absolute
deadline argument.  `Except Unit` renders `raise TimeoutError`. -/

mutual

/-- Translation of `AlphaBetaPlayer.min`: terminal-win check first, then the
deadline check (one clock reading), then the leaf evaluation at
`depth <= 0`, else the column loop. -/
def minT (G : GameOps β) (me : Color) (order : List Nat) (clock : Nat → ℚ)
    (timeout : ℚ) (gb : β) (depth : Int) (alpha beta : Int) (t : Nat) :
    Except Unit (Int × Nat) :=
  if G.hasWon gb me then .ok (WIN_SCORE * (depth + 1), t)
  else if timeout < clock t then .error ()
  else if h : depth ≤ 0 then .ok (G.score gb depth, t + 1)
  else minGoT G me order clock timeout gb depth (by omega) alpha beta (t + 1)
    order
termination_by (depth.toNat, order.length + 1)

/-- The column loop of `AlphaBetaPlayer.min`, threading the clock index. -/
def minGoT (G : GameOps β) (me : Color) (order : List Nat) (clock : Nat → ℚ)
    (timeout : ℚ) (gb : β) (depth : Int) (hd : 0 < depth)
    (alpha beta : Int) (t : Nat) (l : List Nat) : Except Unit (Int × Nat) :=
  match l with
  | [] => .ok (beta, t)
  | pos :: rest =>
    match G.placeStone gb pos (Color.other me) with
    | none => minGoT G me order clock timeout gb depth hd alpha beta t rest
    | some clone =>
      match maxT G me order clock timeout clone (depth - 1) alpha beta t with
      | .error e => .error e
      | .ok (score, t') =>
        let beta' := if score < beta then score else beta
        if alpha ≥ beta' then .ok (beta', t')
        else minGoT G me order clock timeout gb depth hd alpha beta' t' rest
termination_by (depth.toNat, l.length)

/-- Translation of `AlphaBetaPlayer.max` (cf. `minT`). -/
def maxT (G : GameOps β) (me : Color) (order : List Nat) (clock : Nat → ℚ)
    (timeout : ℚ) (gb : β) (depth : Int) (alpha beta : Int) (t : Nat) :
    Except Unit (Int × Nat) :=
  if G.hasWon gb (Color.other me) then .ok (-(WIN_SCORE * (depth + 1)), t)
  else if timeout < clock t then .error ()
  else if h : depth ≤ 0 then .ok (G.score gb depth, t + 1)
  else maxGoT G me order clock timeout gb depth (by omega) alpha beta (t + 1)
    order
termination_by (depth.toNat, order.length + 1)

/-- The column loop of `AlphaBetaPlayer.max`, threading the clock index. -/
def maxGoT (G : GameOps β) (me : Color) (order : List Nat) (clock : Nat → ℚ)
    (timeout : ℚ) (gb : β) (depth : Int) (hd : 0 < depth)
    (alpha beta : Int) (t : Nat) (l : List Nat) : Except Unit (Int × Nat) :=
  match l with
  | [] => .ok (alpha, t)
  | pos :: rest =>
    match G.placeStone gb pos me with
    | none => maxGoT G me order clock timeout gb depth hd alpha beta t rest
    | some clone =>
      match minT G me order clock timeout clone (depth - 1) alpha beta t with
      | .error e => .error e
      | .ok (score, t') =>
        let alpha' := if score > alpha then score else alpha
        if alpha' ≥ beta then .ok (alpha', t')
        else maxGoT G me order clock timeout gb depth hd alpha' beta t' rest
termination_by (depth.toNat, l.length)

end

/-- The root loop of `AlphaBetaPlayer.next_move_timeout`, threading the clock
index; a `TimeoutError` raised inside `min` propagates out. -/
def rootGoT (G : GameOps β) (me : Color) (order : List Nat) (clock : Nat → ℚ)
    (timeout : ℚ) (gb : β) (depth : Int) (alpha : Int) (bestMove : Int)
    (t : Nat) : List Nat → Except Unit (Int × Nat)
  | [] => .ok (bestMove, t)
  | pos :: rest =>
    match G.placeStone gb pos me with
    | none => rootGoT G me order clock timeout gb depth alpha bestMove t rest
    | some clone =>
      match minT G me order clock timeout clone (depth - 1) alpha BETA_INIT
          t with
      | .error e => .error e
      | .ok (score, t') =>
        if score > alpha then
          rootGoT G me order clock timeout gb depth score (pos : Int) t' rest
        else
          rootGoT G me order clock timeout gb depth alpha bestMove t' rest

/-- Translation of `AlphaBetaPlayer.next_move_timeout` (timed): root window
`ALPHA_INIT`/`BETA_INIT`, best move sentinel `-1`. -/
def next_move_timeout (G : GameOps β) (me : Color) (order : List Nat)
    (clock : Nat → ℚ) (timeout : ℚ) (gb : β) (depth : Int) (t : Nat) :
    Except Unit (Int × Nat) :=
  rootGoT G me order clock timeout gb depth ALPHA_INIT (-1) t order

end AlphaBetaPlayer

namespace TimedPlayer

/-- Source constant `TimedPlayer.SAFETY_FACTOR = .95` (the float is rendered
as the exact rational). -/
def SAFETY_FACTOR : ℚ := 19 / 20

variable {β : Type}

/-- The `for depth in range(gb.ROWS * gb.COLS)` loop of
`TimedPlayer.next_move` inside its `try`: run the depth-bounded search
`step` (the abstract `self.next_move_timeout`) at each depth in turn,
keeping the move of the last completed depth; the first `TimeoutError` ends
the loop with the current move (the `except TimeoutError: pass`). -/
def next_moveGo (step : β → Int → ℚ → Nat → Except Unit (Int × Nat))
    (gb : β) (timeoutAbs : ℚ) : List Nat → Int → Nat → Int
  | [], move, _ => move
  | d :: ds, move, t =>
    match step gb (d : Int) timeoutAbs t with
    | .error _ => move
    | .ok (m, t') => next_moveGo step gb timeoutAbs ds m t'

/-- Translation of `TimedPlayer.next_move`: the absolute deadline is
`time.time() + self.timeout * SAFETY_FACTOR` (consuming clock reading 0),
the move starts at the fallback `0`, and depths `0 .. ROWS*COLS - 1` are run
under the shared deadline.  `step` is the abstract `self.next_move_timeout`
of the subclass. -/
def next_move (G : GameOps β)
    (step : β → Int → ℚ → Nat → Except Unit (Int × Nat))
    (clock : Nat → ℚ) (selfTimeout : ℚ) (gb : β) : Int :=
  next_moveGo step gb (clock 0 + selfTimeout * SAFETY_FACTOR)
    (List.range (G.rows * G.cols)) 0 1

/-- The state (move, next clock index) after the first `k` depths of the
driver loop all completed cleanly; `none` if any of them was cancelled. -/
def prefixRun (step : β → Int → ℚ → Nat → Except Unit (Int × Nat))
    (gb : β) (timeoutAbs : ℚ) : Nat → Option (Int × Nat)
  | 0 => some (0, 1)
  | k + 1 =>
    match prefixRun step gb timeoutAbs k with
    | none => none
    | some (_, t) =>
      match step gb (k : Int) timeoutAbs t with
      | .error _ => none
      | .ok (m', t') => some (m', t')

end TimedPlayer

/-- Zero leaf evaluation, the "neutral placeholder" of the spec scenarios. -/
def zeroScore : Board → Int → Int := fun _ _ => 0

/-- A toy conforming board capability with a single always-legal column 3,
used as a witness instance (it satisfies the no-dead-end hypothesis of the
amended C3, which a finite board cannot). -/
def oneColGame : GameOps Unit where
  placeStone := fun _ pos _ => if pos = 3 then some () else none
  hasWon := fun _ _ => false
  score := fun _ _ => 0
  rows := 6
  cols := 7

/-- A board on which White has already won (four in column 0). -/
def wonBoard : Board :=
  ⟨[[Color.white, Color.white, Color.white, Color.white],
    [Color.black, Color.black, Color.black], [], [], [], [], []]⟩

namespace HashedPlayer

open AlphaBetaPlayer

/-- Source constant `HashedPlayer.MIN_HASH_DEPTH = 0`. -/
def MIN_HASH_DEPTH : Int := 0

/-- The per-depth position cache `self.hash_map`: one association list per
remaining-depth slot (the source uses one Python dict per slot, keyed by
board state; an association list consulted front-first models insertion and
lookup, `dict[gb] = score` being a front insertion that shadows older
entries). -/
def Cache (β : Type) : Type := List (List (β × Int))

/-- Lookup of `gb in slot` / `slot[gb]`. -/
def lookupC {β : Type} [DecidableEq β] (slot : List (β × Int)) (gb : β) :
    Option Int :=
  (slot.find? fun e => decide (e.1 = gb)).map Prod.snd

variable {β : Type} [DecidableEq β]

mutual

/-- Translation of `HashedPlayer.min`: for `depth >= MIN_HASH_DEPTH`, return
the cached score on a hit, otherwise compute via the inherited body and
store the result in the depth slot; below `MIN_HASH_DEPTH` just run the
inherited body. -/
def min (G : GameOps β) (me : Color) (order : List Nat) (clock : Nat → ℚ)
    (timeout : ℚ) (gb : β) (depth : Int) (alpha beta : Int) (t : Nat)
    (cache : Cache β) : Except Unit (Int × Nat × Cache β) :=
  if MIN_HASH_DEPTH ≤ depth then
    match lookupC (cache.getD depth.toNat []) gb with
    | some s => .ok (s, t, cache)
    | none =>
      match minSuper G me order clock timeout gb depth alpha beta t cache
          with
      | .error e => .error e
      | .ok (s, t', cache') =>
        .ok (s, t',
          cache'.set depth.toNat ((gb, s) :: cache'.getD depth.toNat []))
  else minSuper G me order clock timeout gb depth alpha beta t cache
termination_by (depth.toNat, order.length + 2)

/-- The inherited `AlphaBetaPlayer.min` body as run by a `HashedPlayer`
(`super().min(...)`): identical to `minT` except that the recursive `self.max`
dispatches back to the cache-decorated `HashedPlayer.max`, and the cache
state is threaded through. -/
def minSuper (G : GameOps β) (me : Color) (order : List Nat)
    (clock : Nat → ℚ) (timeout : ℚ) (gb : β) (depth : Int)
    (alpha beta : Int) (t : Nat) (cache : Cache β) :
    Except Unit (Int × Nat × Cache β) :=
  if G.hasWon gb me then .ok (WIN_SCORE * (depth + 1), t, cache)
  else if timeout < clock t then .error ()
  else if h : depth ≤ 0 then .ok (G.score gb depth, t + 1, cache)
  else minGo G me order clock timeout gb depth (by omega) alpha beta (t + 1)
    cache order
termination_by (depth.toNat, order.length + 1)

/-- The column loop of the inherited `min` body, cache-threading. -/
def minGo (G : GameOps β) (me : Color) (order : List Nat) (clock : Nat → ℚ)
    (timeout : ℚ) (gb : β) (depth : Int) (hd : 0 < depth)
    (alpha beta : Int) (t : Nat) (cache : Cache β) (l : List Nat) :
    Except Unit (Int × Nat × Cache β) :=
  match l with
  | [] => .ok (beta, t, cache)
  | pos :: rest =>
    match G.placeStone gb pos (Color.other me) with
    | none =>
      minGo G me order clock timeout gb depth hd alpha beta t cache rest
    | some clone =>
      match HashedPlayer.max G me order clock timeout clone (depth - 1)
          alpha beta t cache with
      | .error e => .error e
      | .ok (score, t', cache') =>
        let beta' := if score < beta then score else beta
        if alpha ≥ beta' then .ok (beta', t', cache')
        else minGo G me order clock timeout gb depth hd alpha beta' t'
          cache' rest
termination_by (depth.toNat, l.length)

/-- Translation of `HashedPlayer.max` (cf. `HashedPlayer.min`); note that it
shares the per-depth slots with `min`. -/
def max (G : GameOps β) (me : Color) (order : List Nat) (clock : Nat → ℚ)
    (timeout : ℚ) (gb : β) (depth : Int) (alpha beta : Int) (t : Nat)
    (cache : Cache β) : Except Unit (Int × Nat × Cache β) :=
  if MIN_HASH_DEPTH ≤ depth then
    match lookupC (cache.getD depth.toNat []) gb with
    | some s => .ok (s, t, cache)
    | none =>
      match maxSuper G me order clock timeout gb depth alpha beta t cache
          with
      | .error e => .error e
      | .ok (s, t', cache') =>
        .ok (s, t',
          cache'.set depth.toNat ((gb, s) :: cache'.getD depth.toNat []))
  else maxSuper G me order clock timeout gb depth alpha beta t cache
termination_by (depth.toNat, order.length + 2)

/-- The inherited `AlphaBetaPlayer.max` body as run by a `HashedPlayer`. -/
def maxSuper (G : GameOps β) (me : Color) (order : List Nat)
    (clock : Nat → ℚ) (timeout : ℚ) (gb : β) (depth : Int)
    (alpha beta : Int) (t : Nat) (cache : Cache β) :
    Except Unit (Int × Nat × Cache β) :=
  if G.hasWon gb (Color.other me) then
    .ok (-(WIN_SCORE * (depth + 1)), t, cache)
  else if timeout < clock t then .error ()
  else if h : depth ≤ 0 then .ok (G.score gb depth, t + 1, cache)
  else maxGo G me order clock timeout gb depth (by omega) alpha beta (t + 1)
    cache order
termination_by (depth.toNat, order.length + 1)

/-- The column loop of the inherited `max` body, cache-threading. -/
def maxGo (G : GameOps β) (me : Color) (order : List Nat) (clock : Nat → ℚ)
    (timeout : ℚ) (gb : β) (depth : Int) (hd : 0 < depth)
    (alpha beta : Int) (t : Nat) (cache : Cache β) (l : List Nat) :
    Except Unit (Int × Nat × Cache β) :=
  match l with
  | [] => .ok (alpha, t, cache)
  | pos :: rest =>
    match G.placeStone gb pos me with
    | none =>
      maxGo G me order clock timeout gb depth hd alpha beta t cache rest
    | some clone =>
      match HashedPlayer.min G me order clock timeout clone (depth - 1)
          alpha beta t cache with
      | .error e => .error e
      | .ok (score, t', cache') =>
        let alpha' := if score > alpha then score else alpha
        if alpha' ≥ beta then .ok (alpha', t', cache')
        else maxGo G me order clock timeout gb depth hd alpha' beta t'
          cache' rest
termination_by (depth.toNat, l.length)

end

/-- The root loop of the inherited `next_move_timeout` as run by a
`HashedPlayer`: like `rootGoT` but calling the cache-decorated `min`. -/
def rootGo (G : GameOps β) (me : Color) (order : List Nat)
    (clock : Nat → ℚ) (timeout : ℚ) (gb : β) (depth : Int) (alpha : Int)
    (bestMove : Int) (t : Nat) (cache : Cache β) :
    List Nat → Except Unit (Int × Nat × Cache β)
  | [] => .ok (bestMove, t, cache)
  | pos :: rest =>
    match G.placeStone gb pos me with
    | none =>
      rootGo G me order clock timeout gb depth alpha bestMove t cache rest
    | some clone =>
      match HashedPlayer.min G me order clock timeout clone (depth - 1)
          alpha BETA_INIT t cache with
      | .error e => .error e
      | .ok (score, t', cache') =>
        if score > alpha then
          rootGo G me order clock timeout gb depth score (pos : Int) t'
            cache' rest
        else
          rootGo G me order clock timeout gb depth alpha bestMove t' cache'
            rest

/-- Translation of `HashedPlayer.next_move_timeout`: allocate `depth + 1`
empty cache slots (`range(depth+1)` of `{}`), then run the inherited root
search with the cache-decorated `min`.  (The randomized reordering of
`RandomizedAlphaBetaPlayer.next_move_timeout` in the inheritance chain is
the `order` parameter, as for the other translations.) -/
def next_move_timeout (G : GameOps β) (me : Color) (order : List Nat)
    (clock : Nat → ℚ) (timeout : ℚ) (gb : β) (depth : Int) (t : Nat) :
    Except Unit (Int × Nat × Cache β) :=
  rootGo G me order clock timeout gb depth ALPHA_INIT (-1) t
    (List.replicate (depth + 1).toNat ([] : List (β × Int))) order

end HashedPlayer

/-- The transposition toy game: a conforming board capability (states are
ids) in which the position `4` is reachable both through the subtree of the
root move `3` and through the subtree of the root move `2` at the same
remaining depth, exposing the documented window-unsound cache reuse. -/
def transPlace : Nat → Nat → Color → Option Nat := fun s pos _ =>
  match s, pos with
  | 0, 3 => some 1
  | 0, 2 => some 2
  | 1, 3 => some 3
  | 1, 2 => some 4
  | 2, 3 => some 4
  | 3, 3 => some 5
  | 4, 3 => some 6
  | 4, 2 => some 7
  | _, _ => none

/-- Leaf evaluation for the transposition toy game. -/
def transScore : Nat → Int → Int := fun s _ =>
  if s = 5 then 20 else if s = 6 then 20 else if s = 7 then 100 else 0

/-- The transposition toy game packaged as a `GameOps`. -/
def toyTrans : GameOps Nat where
  placeStone := transPlace
  hasWon := fun _ _ => false
  score := transScore
  rows := 6
  cols := 7

/-! The store-passing model.  To settle the aliasing/cloning claim, Python's
in-place board objects are modelled explicitly: a store is a list of board
values, `clone()` allocates a fresh cell copying an existing one and returns
its index, `place_stone` mutates exactly the addressed cell (and leaves the
store untouched when the move is illegal — the board capability applies the
move only when legal).  The search functions are the same translations as
`minT`/`maxT`/`next_move_timeout`, operating on indices into the store, with
every `gb.clone()` of the source made explicit. -/

namespace StoreModel

open AlphaBetaPlayer

variable {β : Type} [Inhabited β]

/-- `gb.clone()`: allocate a fresh cell holding a copy of cell `i`, return
its index and the grown store. -/
def cloneS (s : List β) (i : Nat) : Nat × List β :=
  (s.length, s ++ [s.getD i default])

/-- `b.place_stone(pos, c)`: mutate cell `i` in place when the move is
legal, return whether it was applied. -/
def placeS (G : GameOps β) (s : List β) (i : Nat) (pos : Nat) (c : Color) :
    Bool × List β :=
  match G.placeStone (s.getD i default) pos c with
  | none => (false, s)
  | some b' => (true, s.set i b')

mutual

/-- Translation of `AlphaBetaPlayer.min` over the store: the board argument
is the index `gbI`; one clone is allocated before the loop, and the loop
re-clones from `gbI` after every explored branch. -/
def minS (G : GameOps β) (me : Color) (order : List Nat) (clock : Nat → ℚ)
    (timeout : ℚ) (s : List β) (gbI : Nat) (depth : Int)
    (alpha beta : Int) (t : Nat) : Except Unit (Int × Nat) × List β :=
  if G.hasWon (s.getD gbI default) me then (.ok (WIN_SCORE * (depth + 1), t), s)
  else if timeout < clock t then (.error (), s)
  else if h : depth ≤ 0 then (.ok (G.score (s.getD gbI default) depth, t + 1), s)
  else
    match cloneS s gbI with
    | (cloneI, s1) =>
      minGoS G me order clock timeout s1 gbI cloneI depth (by omega) alpha
        beta (t + 1) order
termination_by (depth.toNat, order.length + 1)

/-- The column loop of `min` over the store: failed placements keep the same
clone; successful ones recurse on the mutated clone and then re-clone from
the parent board. -/
def minGoS (G : GameOps β) (me : Color) (order : List Nat) (clock : Nat → ℚ)
    (timeout : ℚ) (s : List β) (gbI cloneI : Nat) (depth : Int)
    (hd : 0 < depth) (alpha beta : Int) (t : Nat) (l : List Nat) :
    Except Unit (Int × Nat) × List β :=
  match l with
  | [] => (.ok (beta, t), s)
  | pos :: rest =>
    match placeS G s cloneI pos (Color.other me) with
    | (false, s1) =>
      minGoS G me order clock timeout s1 gbI cloneI depth hd alpha beta t
        rest
    | (true, s1) =>
      match maxS G me order clock timeout s1 cloneI (depth - 1) alpha beta
          t with
      | (.error e, s2) => (.error e, s2)
      | (.ok (score, t'), s2) =>
        let beta' := if score < beta then score else beta
        if alpha ≥ beta' then (.ok (beta', t'), s2)
        else
          match cloneS s2 gbI with
          | (cloneI', s3) =>
            minGoS G me order clock timeout s3 gbI cloneI' depth hd alpha
              beta' t' rest
termination_by (depth.toNat, l.length)

/-- Translation of `AlphaBetaPlayer.max` over the store (cf. `minS`). -/
def maxS (G : GameOps β) (me : Color) (order : List Nat) (clock : Nat → ℚ)
    (timeout : ℚ) (s : List β) (gbI : Nat) (depth : Int)
    (alpha beta : Int) (t : Nat) : Except Unit (Int × Nat) × List β :=
  if G.hasWon (s.getD gbI default) (Color.other me) then
    (.ok (-(WIN_SCORE * (depth + 1)), t), s)
  else if timeout < clock t then (.error (), s)
  else if h : depth ≤ 0 then (.ok (G.score (s.getD gbI default) depth, t + 1), s)
  else
    match cloneS s gbI with
    | (cloneI, s1) =>
      maxGoS G me order clock timeout s1 gbI cloneI depth (by omega) alpha
        beta (t + 1) order
termination_by (depth.toNat, order.length + 1)

/-- The column loop of `max` over the store. -/
def maxGoS (G : GameOps β) (me : Color) (order : List Nat) (clock : Nat → ℚ)
    (timeout : ℚ) (s : List β) (gbI cloneI : Nat) (depth : Int)
    (hd : 0 < depth) (alpha beta : Int) (t : Nat) (l : List Nat) :
    Except Unit (Int × Nat) × List β :=
  match l with
  | [] => (.ok (alpha, t), s)
  | pos :: rest =>
    match placeS G s cloneI pos me with
    | (false, s1) =>
      maxGoS G me order clock timeout s1 gbI cloneI depth hd alpha beta t
        rest
    | (true, s1) =>
      match minS G me order clock timeout s1 cloneI (depth - 1) alpha beta
          t with
      | (.error e, s2) => (.error e, s2)
      | (.ok (score, t'), s2) =>
        let alpha' := if score > alpha then score else alpha
        if alpha' ≥ beta then (.ok (alpha', t'), s2)
        else
          match cloneS s2 gbI with
          | (cloneI', s3) =>
            maxGoS G me order clock timeout s3 gbI cloneI' depth hd alpha'
              beta t' rest
termination_by (depth.toNat, l.length)

end

/-- The root loop of `next_move_timeout` over the store. -/
def rootGoS (G : GameOps β) (me : Color) (order : List Nat)
    (clock : Nat → ℚ) (timeout : ℚ) (s : List β) (gbI cloneI : Nat)
    (depth : Int) (alpha : Int) (bestMove : Int) (t : Nat) :
    List Nat → Except Unit (Int × Nat) × List β
  | [] => (.ok (bestMove, t), s)
  | pos :: rest =>
    match placeS G s cloneI pos me with
    | (false, s1) =>
      rootGoS G me order clock timeout s1 gbI cloneI depth alpha bestMove t
        rest
    | (true, s1) =>
      match minS G me order clock timeout s1 cloneI (depth - 1) alpha
          BETA_INIT t with
      | (.error e, s2) => (.error e, s2)
      | (.ok (score, t'), s2) =>
        if score > alpha then
          match cloneS s2 gbI with
          | (cloneI', s3) =>
            rootGoS G me order clock timeout s3 gbI cloneI' depth score
              (pos : Int) t' rest
        else
          match cloneS s2 gbI with
          | (cloneI', s3) =>
            rootGoS G me order clock timeout s3 gbI cloneI' depth alpha
              bestMove t' rest

/-- Translation of `AlphaBetaPlayer.next_move_timeout` over the store: one
initial `clone = gb.clone()`, then the root loop. -/
def next_move_timeoutS (G : GameOps β) (me : Color) (order : List Nat)
    (clock : Nat → ℚ) (timeout : ℚ) (s : List β) (gbI : Nat) (depth : Int)
    (t : Nat) : Except Unit (Int × Nat) × List β :=
  match cloneS s gbI with
  | (cloneI, s1) =>
    rootGoS G me order clock timeout s1 gbI cloneI depth ALPHA_INIT (-1) t
      order

/-- Store agreement below index `m`: `s'` holds the same boards as `s` at
every cell below `m` (the cells that existed before a call). -/
def agreeLow {β : Type} (m : Nat) (s s' : List β) : Prop :=
  ∀ i, i < m → s'.get? i = s.get? i

end StoreModel

/-! ## Theorems -/

section Claims

open AlphaBetaPlayer

/-- A swap pass permutes its input list. -/
theorem swapPass_perm :
    ∀ (qs : List ℚ) (l : List Nat),
      (RandomizedAlphaBetaPlayer.swapPass qs l).Perm l := by
  intro qs
  induction qs with
  | nil =>
    intro l
    cases l <;> simp [RandomizedAlphaBetaPlayer.swapPass]
  | cons q qs ih =>
    intro l
    match l with
    | [] => simp [RandomizedAlphaBetaPlayer.swapPass]
    | [x] => simp [RandomizedAlphaBetaPlayer.swapPass]
    | x :: y :: t =>
      rw [RandomizedAlphaBetaPlayer.swapPass]
      by_cases h : q < RandomizedAlphaBetaPlayer.RANDOMNESS
      · simp only [if_pos h]
        exact ((ih (x :: t)).cons y).trans (List.Perm.swap x y t)
      · simp only [if_neg h]
        exact (ih (y :: t)).cons x

/-- C8: after every call to `random_order` (for any sequence of pseudo-random
draws), the working position order is a permutation — the same multiset of
columns — of the base order `[3, 2, 4, 5, 1, 0, 6]`; the definition of
`random_order` is literally the reset to the base order followed by the
adjacent-swap pass with threshold `RANDOMNESS = 0.3` over one draw per
adjacent index pair. -/
theorem random_order_is_perm_of_base (draws : List ℚ) :
    (RandomizedAlphaBetaPlayer.random_order draws).Perm
      RandomizedAlphaBetaPlayer.POSITION_ORDER_BASE ∧
    RandomizedAlphaBetaPlayer.POSITION_ORDER_BASE = [3, 2, 4, 5, 1, 0, 6] :=
  ⟨swapPass_perm _ _, rfl⟩

/-- C9, counterexample: the root window is not initialised to
`±0x0FFFFFF0` as the spec claims — `ALPHA_INIT`/`BETA_INIT` differ from
those values (the source uses `0xfffffff0`, one more `f`). -/
theorem c9_root_window_counterexample :
    ¬(AlphaBetaPlayer.ALPHA_INIT = -(0x0FFFFFF0 : Int) ∧
      AlphaBetaPlayer.BETA_INIT = (0x0FFFFFF0 : Int)) := by
  decide

/-- C9, amended: the root search initialises its window to
`alpha = ALPHA_INIT = -0xFFFFFFF0` and `beta = BETA_INIT = +0xFFFFFFF0`
before iterating over the position order. -/
theorem c9_root_window_amended :
    AlphaBetaPlayer.ALPHA_INIT = -(0xFFFFFFF0 : Int) ∧
    AlphaBetaPlayer.BETA_INIT = (0xFFFFFFF0 : Int) ∧
    ∀ (β : Type) (G : GameOps β) (me : Color) (order : List Nat)
      (gb : β) (depth : Int),
      AlphaBetaPlayer.next_move_timeoutP G me order gb depth =
        AlphaBetaPlayer.rootGoP G me order gb depth
          AlphaBetaPlayer.ALPHA_INIT (-1) order :=
  ⟨by decide, by decide, fun _ _ _ _ _ _ => rfl⟩

/-- The root loop either keeps the incoming best move or returns a column of
its list on which placing the searching player's stone succeeded. -/
theorem rootGoP_mem {β : Type} (G : GameOps β) (me : Color) (order : List Nat)
    (gb : β) (depth : Int) :
    ∀ (l : List Nat) (alpha best : Int),
      rootGoP G me order gb depth alpha best l = best ∨
      ∃ pos ∈ l, rootGoP G me order gb depth alpha best l = (pos : Int) ∧
        (G.placeStone gb pos me).isSome := by
  intro l
  induction l with
  | nil => intro alpha best; exact Or.inl rfl
  | cons pos rest ih =>
    intro alpha best
    rw [rootGoP]
    cases hp : G.placeStone gb pos me with
    | none =>
      rcases ih alpha best with h | ⟨p, hpmem, hval, hsome⟩
      · exact Or.inl h
      · exact Or.inr ⟨p, List.mem_cons_of_mem _ hpmem, hval, hsome⟩
    | some clone =>
      simp only
      by_cases himp :
          minP G me order clone (depth - 1) alpha BETA_INIT > alpha
      · simp only [if_pos himp]
        rcases ih (minP G me order clone (depth - 1) alpha BETA_INIT)
            (pos : Int) with h | ⟨p, hpmem, hval, hsome⟩
        · exact Or.inr ⟨pos, List.mem_cons_self _ _, h, by rw [hp]; rfl⟩
        · exact Or.inr ⟨p, List.mem_cons_of_mem _ hpmem, hval, hsome⟩
      · simp only [if_neg himp]
        rcases ih alpha best with h | ⟨p, hpmem, hval, hsome⟩
        · exact Or.inl h
        · exact Or.inr ⟨p, List.mem_cons_of_mem _ hpmem, hval, hsome⟩

/-- C10: any value other than `-1` returned by the root search
`next_move_timeout` is a column of the position order on which placing the
searching player's stone on (a clone of) the input board succeeded — every
non-sentinel move the search produces is legal on the board it was asked
about. -/
theorem next_move_timeout_returns_legal {β : Type} (G : GameOps β)
    (me : Color) (order : List Nat) (gb : β) (depth : Int)
    (h : next_move_timeoutP G me order gb depth ≠ -1) :
    ∃ pos ∈ order, next_move_timeoutP G me order gb depth = (pos : Int) ∧
      (G.placeStone gb pos me).isSome := by
  rcases rootGoP_mem G me order gb depth order ALPHA_INIT (-1) with h' | h'
  · exact absurd h' h
  · exact h'


/-- Loop bounds for `minGoP`: the running `beta` only moves down, and never
below the smaller of its start and the floor `min a (-S)` guaranteed for the
recursive `maxP` values. -/
theorem minGoP_bounds {β : Type} (G : GameOps β) (me : Color)
    (order : List Nat) (S : Int) (gb : β) (depth : Int) (hd : 0 < depth)
    (IH : ∀ (gb' : β) (a' b' : Int),
      Min.min a' (-S) ≤ maxP G me order gb' (depth - 1) a' b' ∧
      maxP G me order gb' (depth - 1) a' b' ≤ Max.max a' (Max.max b' S)) :
    ∀ (l : List Nat) (a b0 : Int),
      Min.min b0 (Min.min a (-S)) ≤ minGoP G me order gb depth hd a b0 l ∧
      minGoP G me order gb depth hd a b0 l ≤ b0 := by
  intro l
  induction l with
  | nil => intro a b0; rw [minGoP]; omega
  | cons pos rest ih =>
    intro a b0
    rw [minGoP]
    cases hp : G.placeStone gb pos (Color.other me) with
    | none => exact ih a b0
    | some clone =>
      simp only
      have hs := IH clone a b0
      by_cases hlt : maxP G me order clone (depth - 1) a b0 < b0
      · simp only [if_pos hlt]
        by_cases hcut : a ≥ maxP G me order clone (depth - 1) a b0
        · simp only [if_pos hcut]; omega
        · simp only [if_neg hcut]
          have := ih a (maxP G me order clone (depth - 1) a b0)
          omega
      · simp only [if_neg hlt]
        by_cases hcut : a ≥ b0
        · simp only [if_pos hcut]; omega
        · simp only [if_neg hcut]
          have := ih a b0
          omega

/-- Loop bounds for `maxGoP`: the running `alpha` only moves up, and never
above the larger of its start and the ceiling `max b S` guaranteed for the
recursive `minP` values. -/
theorem maxGoP_bounds {β : Type} (G : GameOps β) (me : Color)
    (order : List Nat) (S : Int) (gb : β) (depth : Int) (hd : 0 < depth)
    (IH : ∀ (gb' : β) (a' b' : Int),
      Min.min (Min.min a' (-S)) b' ≤ minP G me order gb' (depth - 1) a' b' ∧
      minP G me order gb' (depth - 1) a' b' ≤ Max.max b' S) :
    ∀ (l : List Nat) (a0 b : Int),
      a0 ≤ maxGoP G me order gb depth hd a0 b l ∧
      maxGoP G me order gb depth hd a0 b l ≤ Max.max a0 (Max.max b S) := by
  intro l
  induction l with
  | nil => intro a0 b; rw [maxGoP]; omega
  | cons pos rest ih =>
    intro a0 b
    rw [maxGoP]
    cases hp : G.placeStone gb pos me with
    | none => exact ih a0 b
    | some clone =>
      simp only
      have hs := IH clone a0 b
      by_cases hgt : minP G me order clone (depth - 1) a0 b > a0
      · simp only [if_pos hgt]
        by_cases hcut : minP G me order clone (depth - 1) a0 b ≥ b
        · simp only [if_pos hcut]; omega
        · simp only [if_neg hcut]
          have := ih (minP G me order clone (depth - 1) a0 b) b
          omega
      · simp only [if_neg hgt]
        by_cases hcut : a0 ≥ b
        · simp only [if_pos hcut]; omega
        · simp only [if_neg hcut]
          have := ih a0 b
          omega

/-- Value bounds for the evaluator: with the leaf hook bounded by `S` (and
the terminal-win magnitudes below `S`), `min` never returns less than
`min (min alpha (-S)) beta` nor more than `max beta S`, and `max` never
returns less than `min alpha (-S)` nor more than `max alpha (max beta S)`. -/
theorem abP_bounds {β : Type} (G : GameOps β) (me : Color)
    (order : List Nat) (S : Int)
    (hsc : ∀ (b' : β) (d' : Int), -S ≤ G.score b' d' ∧ G.score b' d' ≤ S) :
    ∀ (n : Nat) (depth : Int), depth.toNat ≤ n → -1 ≤ depth →
      WIN_SCORE * (depth + 1) ≤ S → ∀ (gb : β) (a b : Int),
      (Min.min (Min.min a (-S)) b ≤ minP G me order gb depth a b ∧
        minP G me order gb depth a b ≤ Max.max b S) ∧
      (Min.min a (-S) ≤ maxP G me order gb depth a b ∧
        maxP G me order gb depth a b ≤ Max.max a (Max.max b S)) := by
  intro n
  induction n with
  | zero =>
    intro depth hn hd1 hWS gb a b
    have hd0 : depth ≤ 0 := by omega
    constructor
    · rw [minP]
      by_cases hw : G.hasWon gb me = true
      · simp only [if_pos hw]
        have : (0 : Int) ≤ WIN_SCORE * (depth + 1) := by
          simp only [WIN_SCORE]; omega
        omega
      · simp only [if_neg hw, dif_pos hd0]
        have := hsc gb depth
        omega
    · rw [maxP]
      by_cases hw : G.hasWon gb (Color.other me) = true
      · simp only [if_pos hw]
        have : (0 : Int) ≤ WIN_SCORE * (depth + 1) := by
          simp only [WIN_SCORE]; omega
        omega
      · simp only [if_neg hw, dif_pos hd0]
        have := hsc gb depth
        omega
  | succ n ihn =>
    intro depth hn hd1 hWS gb a b
    by_cases hd0 : depth ≤ 0
    · -- same as the base case: no recursion happens
      constructor
      · rw [minP]
        by_cases hw : G.hasWon gb me = true
        · simp only [if_pos hw]
          have : (0 : Int) ≤ WIN_SCORE * (depth + 1) := by
            simp only [WIN_SCORE]; omega
          omega
        · simp only [if_neg hw, dif_pos hd0]
          have := hsc gb depth
          omega
      · rw [maxP]
        by_cases hw : G.hasWon gb (Color.other me) = true
        · simp only [if_pos hw]
          have : (0 : Int) ≤ WIN_SCORE * (depth + 1) := by
            simp only [WIN_SCORE]; omega
          omega
        · simp only [if_neg hw, dif_pos hd0]
          have := hsc gb depth
          omega
    · have hdpos : 0 < depth := by omega
      have hWS' : WIN_SCORE * (depth - 1 + 1) ≤ S := by
        simp only [WIN_SCORE] at hWS ⊢; omega
      have IHmin : ∀ (gb' : β) (a' b' : Int),
          Min.min (Min.min a' (-S)) b' ≤ minP G me order gb' (depth - 1) a' b' ∧
          minP G me order gb' (depth - 1) a' b' ≤ Max.max b' S := by
        intro gb' a' b'
        exact (ihn (depth - 1) (by omega) (by omega) hWS' gb' a' b').1
      have IHmax : ∀ (gb' : β) (a' b' : Int),
          Min.min a' (-S) ≤ maxP G me order gb' (depth - 1) a' b' ∧
          maxP G me order gb' (depth - 1) a' b' ≤ Max.max a' (Max.max b' S) := by
        intro gb' a' b'
        exact (ihn (depth - 1) (by omega) (by omega) hWS' gb' a' b').2
      constructor
      · rw [minP]
        by_cases hw : G.hasWon gb me = true
        · simp only [if_pos hw]
          have : (0 : Int) ≤ WIN_SCORE * (depth + 1) := by
            simp only [WIN_SCORE]; omega
          omega
        · simp only [if_neg hw, dif_neg hd0]
          have := minGoP_bounds G me order S gb depth (by omega) IHmax order a b
          omega
      · rw [maxP]
        by_cases hw : G.hasWon gb (Color.other me) = true
        · simp only [if_pos hw]
          have : (0 : Int) ≤ WIN_SCORE * (depth + 1) := by
            simp only [WIN_SCORE]; omega
          omega
        · simp only [if_neg hw, dif_neg hd0]
          have := maxGoP_bounds G me order S gb depth (by omega) IHmin order a b
          omega


/-! Evaluation facts for the concrete boards, each checked by kernel
reduction. -/

theorem b40_place_black :
    Board.place b40 3 Color.black = none ∧
    Board.place b40 2 Color.black = none ∧
    Board.place b40 4 Color.black = none ∧
    Board.place b40 5 Color.black = none ∧
    Board.place b40 1 Color.black = none ∧
    Board.place b40 0 Color.black = none ∧
    Board.place b40 6 Color.black = some b41 := by
  refine ⟨?_, ?_, ?_, ?_, ?_, ?_, ?_⟩ <;> rfl

theorem b41_place_white :
    Board.place b41 3 Color.white = none ∧
    Board.place b41 2 Color.white = none ∧
    Board.place b41 4 Color.white = none ∧
    Board.place b41 5 Color.white = none ∧
    Board.place b41 1 Color.white = none ∧
    Board.place b41 0 Color.white = none ∧
    Board.place b41 6 Color.white = some fullDrawn := by
  refine ⟨?_, ?_, ?_, ?_, ?_, ?_, ?_⟩ <;> rfl

theorem fullDrawn_place_black :
    Board.place fullDrawn 3 Color.black = none ∧
    Board.place fullDrawn 2 Color.black = none ∧
    Board.place fullDrawn 4 Color.black = none ∧
    Board.place fullDrawn 5 Color.black = none ∧
    Board.place fullDrawn 1 Color.black = none ∧
    Board.place fullDrawn 0 Color.black = none ∧
    Board.place fullDrawn 6 Color.black = none := by
  refine ⟨?_, ?_, ?_, ?_, ?_, ?_, ?_⟩ <;> rfl

theorem fullDrawn_place_white :
    Board.place fullDrawn 3 Color.white = none ∧
    Board.place fullDrawn 2 Color.white = none ∧
    Board.place fullDrawn 4 Color.white = none ∧
    Board.place fullDrawn 5 Color.white = none ∧
    Board.place fullDrawn 1 Color.white = none ∧
    Board.place fullDrawn 0 Color.white = none ∧
    Board.place fullDrawn 6 Color.white = none := by
  refine ⟨?_, ?_, ?_, ?_, ?_, ?_, ?_⟩ <;> rfl

theorem noWin_facts :
    Board.hasWon b41 Color.black = false ∧
    Board.hasWon fullDrawn Color.white = false ∧
    Board.hasWon fullDrawn Color.black = false := by
  refine ⟨?_, ?_, ?_⟩ <;> rfl

/-- C6, counterexample: in a search of maximal depth `maxDepth = 42` (a full
7x6 game) with the neutral leaf hook `0` (which satisfies the claimed Score
bound), `min` on a full but not-won board at remaining depth 1 under the
initial window returns the passed `beta = BETA_INIT`, which is far outside
`[-WIN_SCORE*(maxDepth+1), WIN_SCORE*(maxDepth+1)]`.  The board arises in a
search: it is the successor of `b41` after White fills column 6. -/
theorem c6_score_range_counterexample :
    minP (connect4 zeroScore) Color.black POSITION_ORDER fullDrawn 1
      ALPHA_INIT BETA_INIT = BETA_INIT ∧
    WIN_SCORE * ((42 : Int) + 1) < BETA_INIT ∧
    Board.place b41 6 Color.white = some fullDrawn := by
  refine ⟨?_, by decide, b41_place_white.2.2.2.2.2.2⟩
  have hw := noWin_facts.2.2
  have hp := fullDrawn_place_white
  simp only [minP, minGoP, connect4, Color.other, POSITION_ORDER, hw,
    hp.1, hp.2.1, hp.2.2.1, hp.2.2.2.1, hp.2.2.2.2.1, hp.2.2.2.2.2.1,
    hp.2.2.2.2.2.2, Bool.false_eq_true, if_false]
  norm_num

/-- C6, amended: for every board, depth and window, if the leaf hook is
bounded by `S = WIN_SCORE * (maxDepth + 1)` and the remaining depth is at
most `maxDepth`, every value returned by `min` lies in
`[min (min alpha (-S)) beta, max beta S]` and every value returned by `max`
lies in `[min alpha (-S), max alpha (max beta S)]` — so from the initial
window all values lie in `[ALPHA_INIT, BETA_INIT]`, but (contrary to the
claim) not in `[-S, S]`: a non-won board with no legal successor at positive
remaining depth returns the passed `beta` resp. `alpha` unchanged. -/
theorem c6_score_range_amended {β : Type} (G : GameOps β) (me : Color)
    (order : List Nat) (maxDepth : Int)
    (hsc : ∀ (b' : β) (d' : Int),
      -(WIN_SCORE * (maxDepth + 1)) ≤ G.score b' d' ∧
      G.score b' d' ≤ WIN_SCORE * (maxDepth + 1)) :
    ∀ (gb : β) (depth : Int), -1 ≤ depth → depth ≤ maxDepth →
      ∀ (a b : Int),
      (Min.min (Min.min a (-(WIN_SCORE * (maxDepth + 1)))) b ≤
          minP G me order gb depth a b ∧
        minP G me order gb depth a b ≤
          Max.max b (WIN_SCORE * (maxDepth + 1))) ∧
      (Min.min a (-(WIN_SCORE * (maxDepth + 1))) ≤
          maxP G me order gb depth a b ∧
        maxP G me order gb depth a b ≤
          Max.max a (Max.max b (WIN_SCORE * (maxDepth + 1)))) := by
  intro gb depth hd1 hdm a b
  exact abP_bounds G me order (WIN_SCORE * (maxDepth + 1)) hsc depth.toNat
    depth le_rfl hd1 (by simp only [WIN_SCORE]; omega) gb a b

/-- Witness for the amended C6, at the empty concrete board and depth 0. -/
theorem c6_score_range_amended_witness :
    (Min.min (Min.min (5 : Int) (-(WIN_SCORE * ((0 : Int) + 1)))) 7 ≤
        minP (connect4 zeroScore) Color.black POSITION_ORDER Board.empty 0 5 7 ∧
      minP (connect4 zeroScore) Color.black POSITION_ORDER Board.empty 0 5 7 ≤
        Max.max 7 (WIN_SCORE * ((0 : Int) + 1))) ∧
    (Min.min (5 : Int) (-(WIN_SCORE * ((0 : Int) + 1))) ≤
        maxP (connect4 zeroScore) Color.black POSITION_ORDER Board.empty 0 5 7 ∧
      maxP (connect4 zeroScore) Color.black POSITION_ORDER Board.empty 0 5 7 ≤
        Max.max 5 (Max.max 7 (WIN_SCORE * ((0 : Int) + 1)))) :=
  c6_score_range_amended (connect4 zeroScore) Color.black POSITION_ORDER 0
    (fun _ _ => ⟨by norm_num [connect4, zeroScore, WIN_SCORE],
      by norm_num [connect4, zeroScore, WIN_SCORE]⟩)
    Board.empty 0 (by decide) (by decide) 5 7


/-- Bounds for the exhaustive minimax values: with the leaf hook inside
`[ALPHA_INIT, BETA_INIT]` and the terminal-win magnitudes at most
`BETA_INIT`, all minimax values stay inside `[ALPHA_INIT, BETA_INIT]`. -/
theorem mm_bounds {β : Type} (G : GameOps β) (me : Color) (order : List Nat)
    (hsc : ∀ (b' : β) (d' : Int),
      ALPHA_INIT ≤ G.score b' d' ∧ G.score b' d' ≤ BETA_INIT) :
    ∀ (n : Nat) (depth : Int), depth.toNat ≤ n → -1 ≤ depth →
      WIN_SCORE * (depth + 1) ≤ BETA_INIT → ∀ (gb : β),
      (ALPHA_INIT ≤ Minimax.mmin G me order gb depth ∧
        Minimax.mmin G me order gb depth ≤ BETA_INIT) ∧
      (ALPHA_INIT ≤ Minimax.mmax G me order gb depth ∧
        Minimax.mmax G me order gb depth ≤ BETA_INIT) := by
  have hconst : ALPHA_INIT ≤ BETA_INIT ∧ ALPHA_INIT = -BETA_INIT := by decide
  intro n
  induction n with
  | zero =>
    intro depth hn hd1 hW gb
    have hd0 : depth ≤ 0 := by omega
    have hterm : (0 : Int) ≤ WIN_SCORE * (depth + 1) := by
      simp only [WIN_SCORE]; omega
    have hs := hsc gb depth
    constructor
    · rw [Minimax.mmin]
      by_cases hw : G.hasWon gb me = true
      · simp only [if_pos hw]
        constructor <;> omega
      · simp only [if_neg hw, dif_pos hd0]
        exact hs
    · rw [Minimax.mmax]
      by_cases hw : G.hasWon gb (Color.other me) = true
      · simp only [if_pos hw]
        constructor <;> omega
      · simp only [if_neg hw, dif_pos hd0]
        exact hs
  | succ n ihn =>
    intro depth hn hd1 hW gb
    by_cases hd0 : depth ≤ 0
    · have hterm : (0 : Int) ≤ WIN_SCORE * (depth + 1) := by
        simp only [WIN_SCORE]; omega
      have hs := hsc gb depth
      constructor
      · rw [Minimax.mmin]
        by_cases hw : G.hasWon gb me = true
        · simp only [if_pos hw]
          constructor <;> omega
        · simp only [if_neg hw, dif_pos hd0]
          exact hs
      · rw [Minimax.mmax]
        by_cases hw : G.hasWon gb (Color.other me) = true
        · simp only [if_pos hw]
          constructor <;> omega
        · simp only [if_neg hw, dif_pos hd0]
          exact hs
    · have hdpos : 0 < depth := by omega
      have hW' : WIN_SCORE * (depth - 1 + 1) ≤ BETA_INIT := by
        simp only [WIN_SCORE] at hW ⊢; omega
      have IH : ∀ (gb' : β),
          (ALPHA_INIT ≤ Minimax.mmin G me order gb' (depth - 1) ∧
            Minimax.mmin G me order gb' (depth - 1) ≤ BETA_INIT) ∧
          (ALPHA_INIT ≤ Minimax.mmax G me order gb' (depth - 1) ∧
            Minimax.mmax G me order gb' (depth - 1) ≤ BETA_INIT) :=
        fun gb' => ihn (depth - 1) (by omega) (by omega) hW' gb'
      have hterm : (0 : Int) ≤ WIN_SCORE * (depth + 1) := by
        simp only [WIN_SCORE]; omega
      have hminGo : ∀ (hd : 0 < depth) (l : List Nat),
          ALPHA_INIT ≤ Minimax.mminGo G me order gb depth hd l ∧
          Minimax.mminGo G me order gb depth hd l ≤ BETA_INIT := by
        intro hd l
        induction l with
        | nil => rw [Minimax.mminGo]; omega
        | cons pos rest ihl =>
          rw [Minimax.mminGo]
          cases hp : G.placeStone gb pos (Color.other me) with
          | none => exact ihl
          | some clone =>
            have := (IH clone).2
            simp only
            omega
      have hmaxGo : ∀ (hd : 0 < depth) (l : List Nat),
          ALPHA_INIT ≤ Minimax.mmaxGo G me order gb depth hd l ∧
          Minimax.mmaxGo G me order gb depth hd l ≤ BETA_INIT := by
        intro hd l
        induction l with
        | nil => rw [Minimax.mmaxGo]; omega
        | cons pos rest ihl =>
          rw [Minimax.mmaxGo]
          cases hp : G.placeStone gb pos me with
          | none => exact ihl
          | some clone =>
            have := (IH clone).1
            simp only
            omega
      constructor
      · rw [Minimax.mmin]
        by_cases hw : G.hasWon gb me = true
        · simp only [if_pos hw]
          constructor <;> omega
        · simp only [if_neg hw, dif_neg hd0]
          exact hminGo _ _
      · rw [Minimax.mmax]
        by_cases hw : G.hasWon gb (Color.other me) = true
        · simp only [if_pos hw]
          constructor <;> omega
        · simp only [if_neg hw, dif_neg hd0]
          exact hmaxGo _ _


/-- Fail-hard analysis of the `min` loop against the exhaustive minimax fold:
below the window the loop fails low (result at most `alpha`), inside the
window it returns the exact minimax fold value. -/
theorem minGoP_failhard {β : Type} (G : GameOps β) (me : Color)
    (order : List Nat) (gb : β) (depth : Int) (hd : 0 < depth)
    (IHfh : ∀ (gb' : β) (a' b' : Int), ALPHA_INIT ≤ a' → a' < b' →
      b' ≤ BETA_INIT →
      (Minimax.mmax G me order gb' (depth - 1) ≤ a' →
        maxP G me order gb' (depth - 1) a' b' ≤ a') ∧
      (a' < Minimax.mmax G me order gb' (depth - 1) →
        Minimax.mmax G me order gb' (depth - 1) < b' →
        maxP G me order gb' (depth - 1) a' b' =
          Minimax.mmax G me order gb' (depth - 1)) ∧
      (b' ≤ Minimax.mmax G me order gb' (depth - 1) →
        b' ≤ maxP G me order gb' (depth - 1) a' b'))
    (IHbd : ∀ (gb' : β),
      ALPHA_INIT ≤ Minimax.mmax G me order gb' (depth - 1) ∧
      Minimax.mmax G me order gb' (depth - 1) ≤ BETA_INIT) :
    ∀ (l : List Nat) (a acc : Int), ALPHA_INIT ≤ a → a < acc →
      acc ≤ BETA_INIT →
      (Min.min acc (Minimax.mminGo G me order gb depth hd l) ≤ a →
        minGoP G me order gb depth hd a acc l ≤ a) ∧
      (a < Min.min acc (Minimax.mminGo G me order gb depth hd l) →
        minGoP G me order gb depth hd a acc l =
          Min.min acc (Minimax.mminGo G me order gb depth hd l)) := by
  intro l
  induction l with
  | nil =>
    intro a acc ha hacc haccB
    rw [minGoP, Minimax.mminGo]
    constructor
    · intro h; omega
    · intro h; omega
  | cons pos rest ihl =>
    intro a acc ha hacc haccB
    rw [minGoP, Minimax.mminGo]
    cases hp : G.placeStone gb pos (Color.other me) with
    | none => exact ihl a acc ha hacc haccB
    | some clone =>
      simp only
      have hw := IHbd clone
      obtain ⟨F1, F2, F3⟩ := IHfh clone a acc ha hacc haccB
      by_cases hwa : Minimax.mmax G me order clone (depth - 1) ≤ a
      · have hs : maxP G me order clone (depth - 1) a acc ≤ a := F1 hwa
        have h1 : maxP G me order clone (depth - 1) a acc < acc := by omega
        simp only [if_pos h1]
        have h2 : a ≥ maxP G me order clone (depth - 1) a acc := hs
        simp only [if_pos h2]
        constructor
        · intro _; exact hs
        · intro h; exfalso; omega
      · by_cases hwb : acc ≤ Minimax.mmax G me order clone (depth - 1)
        · have hs : acc ≤ maxP G me order clone (depth - 1) a acc := F3 hwb
          have h1 : ¬ (maxP G me order clone (depth - 1) a acc < acc) := by
            omega
          simp only [if_neg h1]
          have h2 : ¬ (a ≥ acc) := by omega
          simp only [if_neg h2]
          have hrec := ihl a acc ha hacc haccB
          constructor
          · intro h; exact hrec.1 (by omega)
          · intro h
            have := hrec.2 (by omega)
            omega
        · have hs : maxP G me order clone (depth - 1) a acc =
              Minimax.mmax G me order clone (depth - 1) :=
            F2 (by omega) (by omega)
          have h1 : maxP G me order clone (depth - 1) a acc < acc := by omega
          simp only [if_pos h1]
          have h2 : ¬ (a ≥ maxP G me order clone (depth - 1) a acc) := by
            omega
          simp only [if_neg h2]
          rw [hs]
          have hrec := ihl a (Minimax.mmax G me order clone (depth - 1))
            ha (by omega) (by omega)
          constructor
          · intro h; exact hrec.1 (by omega)
          · intro h
            have := hrec.2 (by omega)
            omega

/-- Fail-hard analysis of the `max` loop, mirror image of
`minGoP_failhard`. -/
theorem maxGoP_failhard {β : Type} (G : GameOps β) (me : Color)
    (order : List Nat) (gb : β) (depth : Int) (hd : 0 < depth)
    (IHfh : ∀ (gb' : β) (a' b' : Int), ALPHA_INIT ≤ a' → a' < b' →
      b' ≤ BETA_INIT →
      (Minimax.mmin G me order gb' (depth - 1) ≤ a' →
        minP G me order gb' (depth - 1) a' b' ≤ a') ∧
      (a' < Minimax.mmin G me order gb' (depth - 1) →
        Minimax.mmin G me order gb' (depth - 1) < b' →
        minP G me order gb' (depth - 1) a' b' =
          Minimax.mmin G me order gb' (depth - 1)) ∧
      (b' ≤ Minimax.mmin G me order gb' (depth - 1) →
        b' ≤ minP G me order gb' (depth - 1) a' b'))
    (IHbd : ∀ (gb' : β),
      ALPHA_INIT ≤ Minimax.mmin G me order gb' (depth - 1) ∧
      Minimax.mmin G me order gb' (depth - 1) ≤ BETA_INIT) :
    ∀ (l : List Nat) (acc b : Int), ALPHA_INIT ≤ acc → acc < b →
      b ≤ BETA_INIT →
      (b ≤ Max.max acc (Minimax.mmaxGo G me order gb depth hd l) →
        b ≤ maxGoP G me order gb depth hd acc b l) ∧
      (Max.max acc (Minimax.mmaxGo G me order gb depth hd l) < b →
        maxGoP G me order gb depth hd acc b l =
          Max.max acc (Minimax.mmaxGo G me order gb depth hd l)) := by
  intro l
  induction l with
  | nil =>
    intro acc b hacc hb hbB
    rw [maxGoP, Minimax.mmaxGo]
    have : ALPHA_INIT ≤ acc := hacc
    constructor
    · intro h; omega
    · intro h; omega
  | cons pos rest ihl =>
    intro acc b hacc hb hbB
    rw [maxGoP, Minimax.mmaxGo]
    cases hp : G.placeStone gb pos me with
    | none => exact ihl acc b hacc hb hbB
    | some clone =>
      simp only
      have hw := IHbd clone
      obtain ⟨F1, F2, F3⟩ := IHfh clone acc b hacc hb hbB
      by_cases hwb : b ≤ Minimax.mmin G me order clone (depth - 1)
      · have hs : b ≤ minP G me order clone (depth - 1) acc b := F3 hwb
        have h1 : minP G me order clone (depth - 1) acc b > acc := by omega
        simp only [if_pos h1]
        have h2 : minP G me order clone (depth - 1) acc b ≥ b := hs
        simp only [if_pos h2]
        constructor
        · intro _; exact hs
        · intro h; exfalso; omega
      · by_cases hwa : Minimax.mmin G me order clone (depth - 1) ≤ acc
        · have hs : minP G me order clone (depth - 1) acc b ≤ acc := F1 hwa
          have h1 : ¬ (minP G me order clone (depth - 1) acc b > acc) := by
            omega
          simp only [if_neg h1]
          have h2 : ¬ (acc ≥ b) := by omega
          simp only [if_neg h2]
          have hrec := ihl acc b hacc hb hbB
          constructor
          · intro h; exact hrec.1 (by omega)
          · intro h
            have := hrec.2 (by omega)
            omega
        · have hs : minP G me order clone (depth - 1) acc b =
              Minimax.mmin G me order clone (depth - 1) :=
            F2 (by omega) (by omega)
          have h1 : minP G me order clone (depth - 1) acc b > acc := by omega
          simp only [if_pos h1]
          have h2 : ¬ (minP G me order clone (depth - 1) acc b ≥ b) := by
            omega
          simp only [if_neg h2]
          rw [hs]
          have hrec := ihl (Minimax.mmin G me order clone (depth - 1)) b
            (by omega) (by omega) hbB
          constructor
          · intro h; exact hrec.1 (by omega)
          · intro h
            have := hrec.2 (by omega)
            omega


/-- At non-positive depth the evaluator and exhaustive minimax take identical
branches (terminal win, else leaf evaluation), for any window. -/
theorem abP_eq_mm_of_le_zero {β : Type} (G : GameOps β) (me : Color)
    (order : List Nat) (gb : β) (depth : Int) (hd0 : depth ≤ 0)
    (a b : Int) :
    minP G me order gb depth a b = Minimax.mmin G me order gb depth ∧
    maxP G me order gb depth a b = Minimax.mmax G me order gb depth := by
  constructor
  · rw [minP, Minimax.mmin]
    by_cases hw : G.hasWon gb me = true
    · simp only [if_pos hw]
    · simp only [if_neg hw, dif_pos hd0]
  · rw [maxP, Minimax.mmax]
    by_cases hw : G.hasWon gb (Color.other me) = true
    · simp only [if_pos hw]
    · simp only [if_neg hw, dif_pos hd0]

/-- The fail-hard theorem: against exhaustive minimax, the pruning evaluator
fails low below the window, is exact inside it, and fails high above it. -/
theorem abP_failhard {β : Type} (G : GameOps β) (me : Color)
    (order : List Nat)
    (hsc : ∀ (b' : β) (d' : Int),
      ALPHA_INIT ≤ G.score b' d' ∧ G.score b' d' ≤ BETA_INIT) :
    ∀ (n : Nat) (depth : Int), depth.toNat ≤ n → -1 ≤ depth →
      WIN_SCORE * (depth + 1) ≤ BETA_INIT →
      ∀ (gb : β) (a b : Int), ALPHA_INIT ≤ a → a < b → b ≤ BETA_INIT →
      ((Minimax.mmin G me order gb depth ≤ a →
          minP G me order gb depth a b ≤ a) ∧
        (a < Minimax.mmin G me order gb depth →
          Minimax.mmin G me order gb depth < b →
          minP G me order gb depth a b = Minimax.mmin G me order gb depth) ∧
        (b ≤ Minimax.mmin G me order gb depth →
          b ≤ minP G me order gb depth a b)) ∧
      ((Minimax.mmax G me order gb depth ≤ a →
          maxP G me order gb depth a b ≤ a) ∧
        (a < Minimax.mmax G me order gb depth →
          Minimax.mmax G me order gb depth < b →
          maxP G me order gb depth a b = Minimax.mmax G me order gb depth) ∧
        (b ≤ Minimax.mmax G me order gb depth →
          b ≤ maxP G me order gb depth a b)) := by
  intro n
  induction n with
  | zero =>
    intro depth hn hd1 hW gb a b ha hab hbB
    have hd0 : depth ≤ 0 := by omega
    have heq := abP_eq_mm_of_le_zero G me order gb depth hd0 a b
    refine ⟨⟨?_, ?_, ?_⟩, ⟨?_, ?_, ?_⟩⟩ <;> intros <;> omega
  | succ n ihn =>
    intro depth hn hd1 hW gb a b ha hab hbB
    by_cases hd0 : depth ≤ 0
    · have heq := abP_eq_mm_of_le_zero G me order gb depth hd0 a b
      refine ⟨⟨?_, ?_, ?_⟩, ⟨?_, ?_, ?_⟩⟩ <;> intros <;> omega
    · have hdpos : 0 < depth := by omega
      have hW' : WIN_SCORE * (depth - 1 + 1) ≤ BETA_INIT := by
        simp only [WIN_SCORE] at hW ⊢; omega
      have IHall := fun (gb' : β) (a' b' : Int) ha' hab' hbB' =>
        ihn (depth - 1) (by omega) (by omega) hW' gb' a' b' ha' hab' hbB'
      have IHminfh : ∀ (gb' : β) (a' b' : Int), ALPHA_INIT ≤ a' → a' < b' →
          b' ≤ BETA_INIT →
          (Minimax.mmin G me order gb' (depth - 1) ≤ a' →
            minP G me order gb' (depth - 1) a' b' ≤ a') ∧
          (a' < Minimax.mmin G me order gb' (depth - 1) →
            Minimax.mmin G me order gb' (depth - 1) < b' →
            minP G me order gb' (depth - 1) a' b' =
              Minimax.mmin G me order gb' (depth - 1)) ∧
          (b' ≤ Minimax.mmin G me order gb' (depth - 1) →
            b' ≤ minP G me order gb' (depth - 1) a' b') :=
        fun gb' a' b' ha' hab' hbB' => (IHall gb' a' b' ha' hab' hbB').1
      have IHmaxfh : ∀ (gb' : β) (a' b' : Int), ALPHA_INIT ≤ a' → a' < b' →
          b' ≤ BETA_INIT →
          (Minimax.mmax G me order gb' (depth - 1) ≤ a' →
            maxP G me order gb' (depth - 1) a' b' ≤ a') ∧
          (a' < Minimax.mmax G me order gb' (depth - 1) →
            Minimax.mmax G me order gb' (depth - 1) < b' →
            maxP G me order gb' (depth - 1) a' b' =
              Minimax.mmax G me order gb' (depth - 1)) ∧
          (b' ≤ Minimax.mmax G me order gb' (depth - 1) →
            b' ≤ maxP G me order gb' (depth - 1) a' b') :=
        fun gb' a' b' ha' hab' hbB' => (IHall gb' a' b' ha' hab' hbB').2
      have IHbdmin : ∀ (gb' : β),
          ALPHA_INIT ≤ Minimax.mmin G me order gb' (depth - 1) ∧
          Minimax.mmin G me order gb' (depth - 1) ≤ BETA_INIT :=
        fun gb' =>
          (mm_bounds G me order hsc (depth - 1).toNat (depth - 1) le_rfl
            (by omega) hW' gb').1
      have IHbdmax : ∀ (gb' : β),
          ALPHA_INIT ≤ Minimax.mmax G me order gb' (depth - 1) ∧
          Minimax.mmax G me order gb' (depth - 1) ≤ BETA_INIT :=
        fun gb' =>
          (mm_bounds G me order hsc (depth - 1).toNat (depth - 1) le_rfl
            (by omega) hW' gb').2
      constructor
      · -- min side
        rw [minP, Minimax.mmin]
        by_cases hw : G.hasWon gb me = true
        · simp only [if_pos hw]
          exact ⟨fun h => h, fun _ _ => trivial, fun h => h⟩
        · simp only [if_neg hw, dif_neg hd0]
          have hloop := minGoP_failhard G me order gb depth (by omega)
            IHmaxfh IHbdmax order a b ha hab hbB
          refine ⟨?_, ?_, ?_⟩
          · intro h; exact hloop.1 (by omega)
          · intro h1 h2
            have := hloop.2 (by omega)
            omega
          · intro h
            have := hloop.2 (by omega)
            omega
      · -- max side
        rw [maxP, Minimax.mmax]
        by_cases hw : G.hasWon gb (Color.other me) = true
        · simp only [if_pos hw]
          exact ⟨fun h => h, fun _ _ => trivial, fun h => h⟩
        · simp only [if_neg hw, dif_neg hd0]
          have hloop := maxGoP_failhard G me order gb depth (by omega)
            IHminfh IHbdmin order a b ha hab hbB
          refine ⟨?_, ?_, ?_⟩
          · intro h
            have := hloop.2 (by omega)
            omega
          · intro h1 h2
            have := hloop.2 (by omega)
            omega
          · intro h; exact hloop.1 (by omega)


/-- C1: for every board and every depth, the value computed by the alpha-beta
evaluator (`min`/`max` under the initial window `ALPHA_INIT`/`BETA_INIT`, no
randomization, no caching) equals the value of the exhaustive minimax search
of the same game tree to the same depth with the same terminal-win scores and
the same leaf evaluation — pruning changes only the work done.  The leaf hook
is assumed to respect its documented Score contract
(`|score| ≤ WIN_SCORE * (depth + 1)`), with the win scores inside the
sentinel window. -/
theorem c1_alphabeta_equals_minimax {β : Type} (G : GameOps β) (me : Color)
    (order : List Nat) (gb : β) (depth : Int)
    (hsc : ∀ (b' : β) (d' : Int),
      -(WIN_SCORE * (depth + 1)) ≤ G.score b' d' ∧
      G.score b' d' ≤ WIN_SCORE * (depth + 1))
    (hW : WIN_SCORE * (depth + 1) ≤ BETA_INIT) :
    minP G me order gb depth ALPHA_INIT BETA_INIT =
      Minimax.mmin G me order gb depth ∧
    maxP G me order gb depth ALPHA_INIT BETA_INIT =
      Minimax.mmax G me order gb depth := by
  have hAB : ALPHA_INIT = -BETA_INIT := by decide
  have hlt : ALPHA_INIT < BETA_INIT := by decide
  by_cases hd0 : depth ≤ 0
  · exact abP_eq_mm_of_le_zero G me order gb depth hd0 ALPHA_INIT BETA_INIT
  · have hsc' : ∀ (b' : β) (d' : Int),
        ALPHA_INIT ≤ G.score b' d' ∧ G.score b' d' ≤ BETA_INIT := by
      intro b' d'
      have := hsc b' d'
      omega
    have hscS : ∀ (b' : β) (d' : Int),
        -BETA_INIT ≤ G.score b' d' ∧ G.score b' d' ≤ BETA_INIT := by
      intro b' d'
      have := hsc' b' d'
      omega
    have fh := abP_failhard G me order hsc' depth.toNat depth le_rfl
      (by omega) hW gb ALPHA_INIT BETA_INIT le_rfl hlt le_rfl
    have bd := mm_bounds G me order hsc' depth.toNat depth le_rfl
      (by omega) hW gb
    have abbd := abP_bounds G me order BETA_INIT hscS depth.toNat depth
      le_rfl (by omega) hW gb ALPHA_INIT BETA_INIT
    constructor
    · by_cases h1 : Minimax.mmin G me order gb depth ≤ ALPHA_INIT
      · have := fh.1.1 h1
        have := abbd.1.1
        have := bd.1.1
        omega
      · by_cases h2 : BETA_INIT ≤ Minimax.mmin G me order gb depth
        · have := fh.1.2.2 h2
          have := abbd.1.2
          have := bd.1.2
          omega
        · exact fh.1.2.1 (by omega) (by omega)
    · by_cases h1 : Minimax.mmax G me order gb depth ≤ ALPHA_INIT
      · have := fh.2.1 h1
        have := abbd.2.1
        have := bd.2.1
        omega
      · by_cases h2 : BETA_INIT ≤ Minimax.mmax G me order gb depth
        · have := fh.2.2.2 h2
          have := abbd.2.2
          have := bd.2.2
          omega
        · exact fh.2.2.1 (by omega) (by omega)

/-- Witness for C1, at the concrete empty board, depth 1, neutral leaf
hook. -/
theorem c1_alphabeta_equals_minimax_witness :
    minP (connect4 zeroScore) Color.white POSITION_ORDER Board.empty 1
      ALPHA_INIT BETA_INIT =
      Minimax.mmin (connect4 zeroScore) Color.white POSITION_ORDER
        Board.empty 1 ∧
    maxP (connect4 zeroScore) Color.white POSITION_ORDER Board.empty 1
      ALPHA_INIT BETA_INIT =
      Minimax.mmax (connect4 zeroScore) Color.white POSITION_ORDER
        Board.empty 1 :=
  c1_alphabeta_equals_minimax (connect4 zeroScore) Color.white
    POSITION_ORDER Board.empty 1
    (fun _ _ => ⟨by norm_num [connect4, zeroScore, WIN_SCORE],
      by norm_num [connect4, zeroScore, WIN_SCORE]⟩)
    (by decide)


/-- Strict lower bound for the evaluator values: if the leaf hook is strictly
inside the sentinel window, terminal-win magnitudes are strictly below
`BETA_INIT`, and no reachable position is a dead end for the maximizing
player (every board is either already won by the opponent or has a legal
column for the searching player), then `min` and `max` always return strictly
more than `ALPHA_INIT`. -/
theorem abP_strict {β : Type} (G : GameOps β) (me : Color) (order : List Nat)
    (hsc : ∀ (b' : β) (d' : Int),
      ALPHA_INIT < G.score b' d' ∧ G.score b' d' < BETA_INIT)
    (Hnf : ∀ (b' : β), G.hasWon b' (Color.other me) = true ∨
      ∃ p ∈ order, (G.placeStone b' p me).isSome) :
    ∀ (n : Nat) (depth : Int), depth.toNat ≤ n → -1 ≤ depth →
      WIN_SCORE * (depth + 1) < BETA_INIT →
      ∀ (gb : β) (a b : Int), ALPHA_INIT ≤ a → ALPHA_INIT < b →
      ALPHA_INIT < minP G me order gb depth a b ∧
      ALPHA_INIT < maxP G me order gb depth a b := by
  have hAB : ALPHA_INIT = -BETA_INIT := by decide
  intro n
  induction n with
  | zero =>
    intro depth hn hd1 hW gb a b ha hb
    have hd0 : depth ≤ 0 := by omega
    have hterm : (0 : Int) ≤ WIN_SCORE * (depth + 1) := by
      simp only [WIN_SCORE]; omega
    have hs := hsc gb depth
    constructor
    · rw [minP]
      by_cases hw : G.hasWon gb me = true
      · simp only [if_pos hw]; omega
      · simp only [if_neg hw, dif_pos hd0]; omega
    · rw [maxP]
      by_cases hw : G.hasWon gb (Color.other me) = true
      · simp only [if_pos hw]; omega
      · simp only [if_neg hw, dif_pos hd0]; omega
  | succ n ihn =>
    intro depth hn hd1 hW gb a b ha hb
    by_cases hd0 : depth ≤ 0
    · have hterm : (0 : Int) ≤ WIN_SCORE * (depth + 1) := by
        simp only [WIN_SCORE]; omega
      have hs := hsc gb depth
      constructor
      · rw [minP]
        by_cases hw : G.hasWon gb me = true
        · simp only [if_pos hw]; omega
        · simp only [if_neg hw, dif_pos hd0]; omega
      · rw [maxP]
        by_cases hw : G.hasWon gb (Color.other me) = true
        · simp only [if_pos hw]; omega
        · simp only [if_neg hw, dif_pos hd0]; omega
    · have hdpos : 0 < depth := by omega
      have hW' : WIN_SCORE * (depth - 1 + 1) < BETA_INIT := by
        simp only [WIN_SCORE] at hW ⊢; omega
      have IH : ∀ (gb' : β) (a' b' : Int), ALPHA_INIT ≤ a' →
          ALPHA_INIT < b' →
          ALPHA_INIT < minP G me order gb' (depth - 1) a' b' ∧
          ALPHA_INIT < maxP G me order gb' (depth - 1) a' b' :=
        fun gb' a' b' ha' hb' =>
          ihn (depth - 1) (by omega) (by omega) hW' gb' a' b' ha' hb'
      have hterm : (0 : Int) ≤ WIN_SCORE * (depth + 1) := by
        simp only [WIN_SCORE]; omega
      have hminGo : ∀ (hd : 0 < depth) (l : List Nat) (acc : Int),
          ALPHA_INIT < acc →
          ALPHA_INIT < minGoP G me order gb depth hd a acc l := by
        intro hd l
        induction l with
        | nil => intro acc hacc; rw [minGoP]; exact hacc
        | cons pos rest ihl =>
          intro acc hacc
          rw [minGoP]
          cases hp : G.placeStone gb pos (Color.other me) with
          | none => exact ihl acc hacc
          | some clone =>
            simp only
            have hs := (IH clone a acc ha hacc).2
            by_cases h1 : maxP G me order clone (depth - 1) a acc < acc
            · simp only [if_pos h1]
              by_cases h2 : a ≥ maxP G me order clone (depth - 1) a acc
              · simp only [if_pos h2]; omega
              · simp only [if_neg h2]
                exact ihl _ (by omega)
            · simp only [if_neg h1]
              by_cases h2 : a ≥ acc
              · simp only [if_pos h2]; omega
              · simp only [if_neg h2]
                exact ihl acc hacc
      have hmaxGo : ∀ (hd : 0 < depth) (l : List Nat) (acc : Int),
          ALPHA_INIT ≤ acc →
          (ALPHA_INIT < acc ∨ ∃ p ∈ l, (G.placeStone gb p me).isSome) →
          ALPHA_INIT < maxGoP G me order gb depth hd acc b l := by
        intro hd l
        induction l with
        | nil =>
          intro acc hacc0 hdisj
          rw [maxGoP]
          rcases hdisj with h | ⟨p, hmem, _⟩
          · exact h
          · exact absurd hmem (List.not_mem_nil p)
        | cons pos rest ihl =>
          intro acc hacc0 hdisj
          rw [maxGoP]
          cases hp : G.placeStone gb pos me with
          | none =>
            refine ihl acc hacc0 ?_
            rcases hdisj with h | ⟨p, hmem, hsome⟩
            · exact Or.inl h
            · rcases List.mem_cons.mp hmem with rfl | hmem'
              · rw [hp] at hsome; exact absurd hsome (by simp)
              · exact Or.inr ⟨p, hmem', hsome⟩
          | some clone =>
            simp only
            have hs := (IH clone acc b hacc0 hb).1
            by_cases h1 : minP G me order clone (depth - 1) acc b > acc
            · simp only [if_pos h1]
              by_cases h2 : minP G me order clone (depth - 1) acc b ≥ b
              · simp only [if_pos h2]; omega
              · simp only [if_neg h2]
                exact ihl _ (by omega) (Or.inl (by omega))
            · simp only [if_neg h1]
              by_cases h2 : acc ≥ b
              · simp only [if_pos h2]; omega
              · simp only [if_neg h2]
                exact ihl acc hacc0 (Or.inl (by omega))
      have hB0 : (0 : Int) < BETA_INIT := by decide
      constructor
      · rw [minP]
        by_cases hw : G.hasWon gb me = true
        · simp only [if_pos hw]; omega
        · simp only [if_neg hw, dif_neg hd0]
          exact hminGo _ order b hb
      · rw [maxP]
        by_cases hw : G.hasWon gb (Color.other me) = true
        · simp only [if_pos hw]; omega
        · simp only [if_neg hw, dif_neg hd0]
          rcases Hnf gb with h | ⟨p, hmem, hsome⟩
          · exact absurd h hw
          · exact hmaxGo _ order a ha (Or.inr ⟨p, hmem, hsome⟩)


/-- If every column of `l` is illegal, the root loop returns the incoming
best move unchanged. -/
theorem rootGoP_all_none {β : Type} (G : GameOps β) (me : Color)
    (order : List Nat) (gb : β) (depth : Int) :
    ∀ (l : List Nat) (alpha best : Int),
      (∀ p ∈ l, G.placeStone gb p me = none) →
      rootGoP G me order gb depth alpha best l = best := by
  intro l
  induction l with
  | nil => intro alpha best _; rfl
  | cons pos rest ih =>
    intro alpha best hnone
    rw [rootGoP]
    rw [hnone pos (List.mem_cons_self _ _)]
    exact ih alpha best fun p hp => hnone p (List.mem_cons_of_mem _ hp)

set_option maxRecDepth 4000 in
/-- C3, counterexample: on the concrete board `b40` — exactly one legal
column (6), with room for exactly two stones — a root search at depth 3 with
the neutral bounded leaf hook returns the sentinel `-1` even though a legal
column exists.  (The deep line fills the board; the `max` step on the full
drawn board returns the untouched `alpha = ALPHA_INIT`, so no root column
"improves" and the claimed equivalence "returns -1 iff no legal column"
fails.) -/
theorem c3_root_sentinel_counterexample :
    next_move_timeoutP (connect4 zeroScore) Color.black POSITION_ORDER b40 3
      = -1 ∧
    ((connect4 zeroScore).placeStone b40 6 Color.black).isSome = true := by
  constructor
  · have hb40 := b40_place_black
    have hb41 := b41_place_white
    have hfdb := fullDrawn_place_black
    have hnw := noWin_facts
    simp only [next_move_timeoutP, POSITION_ORDER, rootGoP, minP, minGoP,
      maxP, maxGoP, connect4, zeroScore, Color.other,
      hb40.1, hb40.2.1, hb40.2.2.1, hb40.2.2.2.1, hb40.2.2.2.2.1,
      hb40.2.2.2.2.2.1, hb40.2.2.2.2.2.2,
      hb41.1, hb41.2.1, hb41.2.2.1, hb41.2.2.2.1, hb41.2.2.2.2.1,
      hb41.2.2.2.2.2.1, hb41.2.2.2.2.2.2,
      hfdb.1, hfdb.2.1, hfdb.2.2.1, hfdb.2.2.2.1, hfdb.2.2.2.2.1,
      hfdb.2.2.2.2.2.1, hfdb.2.2.2.2.2.2,
      hnw.1, hnw.2.1, hnw.2.2, Bool.false_eq_true, if_false]
    decide
  · rw [show (connect4 zeroScore).placeStone b40 6 Color.black =
      some b41 from b40_place_black.2.2.2.2.2.2]
    rfl

/-- C3, amended: with the leaf hook strictly inside the sentinel window, win
scores strictly inside it, and no reachable dead end for the searching player
(every board is either won by the opponent or still has a legal column for
the searching player — this excludes the counterexample's filled-up boards),
the root search returns `-1` iff the board admits no legal column, and
otherwise returns some legal column. -/
theorem c3_root_sentinel_amended {β : Type} (G : GameOps β) (me : Color)
    (order : List Nat) (gb : β) (depth : Int)
    (hsc : ∀ (b' : β) (d' : Int),
      ALPHA_INIT < G.score b' d' ∧ G.score b' d' < BETA_INIT)
    (Hnf : ∀ (b' : β), G.hasWon b' (Color.other me) = true ∨
      ∃ p ∈ order, (G.placeStone b' p me).isSome)
    (hd : 0 ≤ depth) (hW : WIN_SCORE * (depth + 1) ≤ BETA_INIT) :
    (next_move_timeoutP G me order gb depth = -1 ↔
      ∀ p ∈ order, G.placeStone gb p me = none) ∧
    (next_move_timeoutP G me order gb depth ≠ -1 →
      ∃ pos ∈ order, next_move_timeoutP G me order gb depth = (pos : Int) ∧
        (G.placeStone gb pos me).isSome) := by
  have hne : ∀ (l : List Nat),
      (∃ p ∈ l, (G.placeStone gb p me).isSome) →
      rootGoP G me order gb depth ALPHA_INIT (-1) l ≠ -1 := by
    intro l
    induction l with
    | nil =>
      rintro ⟨p, hmem, _⟩
      exact absurd hmem (List.not_mem_nil p)
    | cons pos rest ih =>
      rintro ⟨p, hmem, hsome⟩
      rw [rootGoP]
      cases hp : G.placeStone gb pos me with
      | none =>
        rcases List.mem_cons.mp hmem with rfl | hmem'
        · rw [hp] at hsome
          exact absurd hsome (by simp)
        · exact ih ⟨p, hmem', hsome⟩
      | some clone =>
        simp only
        have hstrict : ALPHA_INIT <
            minP G me order clone (depth - 1) ALPHA_INIT BETA_INIT :=
          (abP_strict G me order hsc Hnf (depth - 1).toNat (depth - 1)
            le_rfl (by omega)
            (by simp only [WIN_SCORE] at hW ⊢; omega)
            clone ALPHA_INIT BETA_INIT le_rfl (by decide)).1
        have hgt : minP G me order clone (depth - 1) ALPHA_INIT BETA_INIT >
            ALPHA_INIT := hstrict
        simp only [if_pos hgt]
        rcases rootGoP_mem G me order gb depth rest
            (minP G me order clone (depth - 1) ALPHA_INIT BETA_INIT)
            (pos : Int) with h | ⟨q, _, hval, _⟩
        · rw [h]
          have := Int.natCast_nonneg pos
          omega
        · rw [hval]
          have := Int.natCast_nonneg q
          omega
  constructor
  · constructor
    · intro hres
      by_contra hnotall
      push_neg at hnotall
      obtain ⟨p, hmem, hne'⟩ := hnotall
      have hsome : (G.placeStone gb p me).isSome := by
        cases hpp : G.placeStone gb p me with
        | none => exact absurd hpp hne'
        | some c => rfl
      exact hne order ⟨p, hmem, hsome⟩ hres
    · intro hall
      exact rootGoP_all_none G me order gb depth order ALPHA_INIT (-1) hall
  · intro hres
    rcases rootGoP_mem G me order gb depth order ALPHA_INIT (-1)
      with h | h
    · exact absurd h hres
    · exact h

/-- Witness for the amended C3 at the toy one-column game, depth 1. -/
theorem c3_root_sentinel_amended_witness :
    (next_move_timeoutP oneColGame Color.white POSITION_ORDER () 1 = -1 ↔
      ∀ p ∈ POSITION_ORDER, oneColGame.placeStone () p Color.white = none) ∧
    (next_move_timeoutP oneColGame Color.white POSITION_ORDER () 1 ≠ -1 →
      ∃ pos ∈ POSITION_ORDER,
        next_move_timeoutP oneColGame Color.white POSITION_ORDER () 1 =
          (pos : Int) ∧
        (oneColGame.placeStone () pos Color.white).isSome) :=
  c3_root_sentinel_amended oneColGame Color.white POSITION_ORDER () 1
    (fun _ _ => ⟨by norm_num [oneColGame, ALPHA_INIT],
      by norm_num [oneColGame, BETA_INIT]⟩)
    (fun _ => Or.inr ⟨3, by decide, rfl⟩)
    (by decide) (by decide)


set_option maxRecDepth 4000 in
/-- Witness for C10: on the concrete board `b40` at depth 2 the root search
returns column 6, which is legal. -/
theorem next_move_timeout_returns_legal_witness :
    next_move_timeoutP (connect4 zeroScore) Color.black POSITION_ORDER b40 2
      ≠ -1 ∧
    ∃ pos ∈ POSITION_ORDER,
      next_move_timeoutP (connect4 zeroScore) Color.black POSITION_ORDER b40
          2 = (pos : Int) ∧
      ((connect4 zeroScore).placeStone b40 pos Color.black).isSome := by
  have hv : next_move_timeoutP (connect4 zeroScore) Color.black
      POSITION_ORDER b40 2 = 6 := by
    have hb40 := b40_place_black
    have hb41 := b41_place_white
    have hfdb := fullDrawn_place_black
    have hnw := noWin_facts
    simp only [next_move_timeoutP, POSITION_ORDER, rootGoP, minP, minGoP,
      maxP, maxGoP, connect4, zeroScore, Color.other,
      hb40.1, hb40.2.1, hb40.2.2.1, hb40.2.2.2.1, hb40.2.2.2.2.1,
      hb40.2.2.2.2.2.1, hb40.2.2.2.2.2.2,
      hb41.1, hb41.2.1, hb41.2.2.1, hb41.2.2.2.1, hb41.2.2.2.2.1,
      hb41.2.2.2.2.2.1, hb41.2.2.2.2.2.2,
      hfdb.1, hfdb.2.1, hfdb.2.2.1, hfdb.2.2.2.1, hfdb.2.2.2.2.1,
      hfdb.2.2.2.2.2.1, hfdb.2.2.2.2.2.2,
      hnw.1, hnw.2.1, hnw.2.2, Bool.false_eq_true, if_false]
    decide
  have hne : next_move_timeoutP (connect4 zeroScore) Color.black
      POSITION_ORDER b40 2 ≠ -1 := by rw [hv]; decide
  exact ⟨hne, next_move_timeout_returns_legal (connect4 zeroScore)
    Color.black POSITION_ORDER b40 2 hne⟩


/-- After `k` cleanly completed depths, the driver loop continues from the
recorded state: the full run over depths `0..k+j-1` equals the run over the
remaining depths `k..k+j-1` started at that state. -/
theorem next_moveGo_shift {β : Type}
    (step : β → Int → ℚ → Nat → Except Unit (Int × Nat))
    (gb : β) (timeoutAbs : ℚ) :
    ∀ (k j : Nat) (m : Int) (t : Nat),
      TimedPlayer.prefixRun step gb timeoutAbs k = some (m, t) →
      TimedPlayer.next_moveGo step gb timeoutAbs (List.range (k + j)) 0 1 =
        TimedPlayer.next_moveGo step gb timeoutAbs (List.range' k j) m t := by
  intro k
  induction k with
  | zero =>
    intro j m t hpre
    have hmt : m = 0 ∧ t = 1 := by
      rw [TimedPlayer.prefixRun] at hpre
      cases hpre
      exact ⟨rfl, rfl⟩
    obtain ⟨rfl, rfl⟩ := hmt
    rw [Nat.zero_add, List.range_eq_range']
  | succ k ih =>
    intro j m t hpre
    rw [TimedPlayer.prefixRun] at hpre
    cases hk : TimedPlayer.prefixRun step gb timeoutAbs k with
    | none => rw [hk] at hpre; exact absurd hpre (by simp)
    | some s =>
      obtain ⟨m0, t0⟩ := s
      rw [hk] at hpre
      simp only at hpre
      cases hstep : step gb (k : Int) timeoutAbs t0 with
      | error e => rw [hstep] at hpre; exact absurd hpre (by simp)
      | ok r =>
        obtain ⟨m1, t1⟩ := r
        rw [hstep] at hpre
        simp only [Option.some.injEq, Prod.mk.injEq] at hpre
        obtain ⟨rfl, rfl⟩ := hpre
        have hrange : k + 1 + j = k + (j + 1) := by omega
        rw [hrange, ih (j + 1) m0 t0 hk]
        show TimedPlayer.next_moveGo step gb timeoutAbs
          (k :: List.range' (k + 1) j) m0 t0 = _
        rw [TimedPlayer.next_moveGo, hstep]

/-- C4: the iterative-deepening driver catches the cancellation signal (the
`.error` arm of each step is consumed by the loop, never re-raised) and
returns the move of the deepest depth that completed cleanly: if depth 0
itself is cancelled (zero or already-expired budget), it returns the
fallback move `0`; if depth `k` is the first cancelled depth, it returns the
move produced by depth `k - 1`; if every depth completes, it returns the
last move. -/
theorem c4_driver_fallback {β : Type} (G : GameOps β)
    (step : β → Int → ℚ → Nat → Except Unit (Int × Nat))
    (clock : Nat → ℚ) (selfTimeout : ℚ) (gb : β) :
    (step gb 0 (clock 0 + selfTimeout * TimedPlayer.SAFETY_FACTOR) 1 =
        .error () →
      TimedPlayer.next_move G step clock selfTimeout gb = 0) ∧
    (∀ (k : Nat) (m : Int) (t : Nat), k < G.rows * G.cols →
      TimedPlayer.prefixRun step gb
          (clock 0 + selfTimeout * TimedPlayer.SAFETY_FACTOR) k =
        some (m, t) →
      step gb (k : Int) (clock 0 + selfTimeout * TimedPlayer.SAFETY_FACTOR) t
        = .error () →
      TimedPlayer.next_move G step clock selfTimeout gb = m) ∧
    (∀ (m : Int) (t : Nat),
      TimedPlayer.prefixRun step gb
          (clock 0 + selfTimeout * TimedPlayer.SAFETY_FACTOR)
          (G.rows * G.cols) = some (m, t) →
      TimedPlayer.next_move G step clock selfTimeout gb = m) := by
  set timeoutAbs := clock 0 + selfTimeout * TimedPlayer.SAFETY_FACTOR with htA
  have hmid : ∀ (k : Nat) (m : Int) (t : Nat), k < G.rows * G.cols →
      TimedPlayer.prefixRun step gb timeoutAbs k = some (m, t) →
      step gb (k : Int) timeoutAbs t = .error () →
      TimedPlayer.next_move G step clock selfTimeout gb = m := by
    intro k m t hk hpre hstep
    have hsplit : G.rows * G.cols = k + (G.rows * G.cols - k) := by omega
    rw [TimedPlayer.next_move, ← htA, hsplit,
      next_moveGo_shift step gb timeoutAbs k _ m t hpre]
    have hj : G.rows * G.cols - k = (G.rows * G.cols - k - 1) + 1 := by omega
    rw [hj]
    show TimedPlayer.next_moveGo step gb timeoutAbs
      (k :: List.range' (k + 1) (G.rows * G.cols - k - 1)) m t = m
    rw [TimedPlayer.next_moveGo, hstep]
  refine ⟨?_, hmid, ?_⟩
  · intro h0
    by_cases hN : G.rows * G.cols = 0
    · rw [TimedPlayer.next_move, hN]
      rfl
    · exact hmid 0 0 1 (by omega) rfl h0
  · intro m t hpre
    have := next_moveGo_shift step gb timeoutAbs (G.rows * G.cols) 0 m t hpre
    rw [Nat.add_zero] at this
    rw [TimedPlayer.next_move, ← htA, this]
    rfl

/-- Witness for C4: a step that is cancelled at depth 0 makes the driver
return the fallback move `0` (instantiated at the toy game). -/
theorem c4_driver_fallback_witness :
    TimedPlayer.next_move oneColGame
      (fun _ d _ t => if d = 0 then .error () else .ok (d, t))
      (fun _ => 0) 0 () = 0 :=
  (c4_driver_fallback oneColGame
    (fun _ d _ t => if d = 0 then .error () else .ok (d, t))
    (fun _ => 0) 0 ()).1 rfl


/-- Soundness of the untimed specialisation: on a run whose clock never
passes the deadline, the timed `min`/`max` complete with exactly the values
of `minP`/`maxP`. -/
theorem minT_eq_minP {β : Type} (G : GameOps β) (me : Color)
    (order : List Nat) (clock : Nat → ℚ) (timeout : ℚ)
    (hclock : ∀ i, ¬ (timeout < clock i)) :
    ∀ (n : Nat) (depth : Int), depth.toNat ≤ n →
      ∀ (gb : β) (a b : Int) (t : Nat),
      (∃ t', minT G me order clock timeout gb depth a b t =
        .ok (minP G me order gb depth a b, t')) ∧
      (∃ t', maxT G me order clock timeout gb depth a b t =
        .ok (maxP G me order gb depth a b, t')) := by
  intro n
  induction n with
  | zero =>
    intro depth hn gb a b t
    have hd0 : depth ≤ 0 := by omega
    constructor
    · rw [minT, minP]
      by_cases hw : G.hasWon gb me = true
      · simp only [if_pos hw]
        exact ⟨t, rfl⟩
      · simp only [if_neg hw, if_neg (hclock t), dif_pos hd0]
        exact ⟨t + 1, rfl⟩
    · rw [maxT, maxP]
      by_cases hw : G.hasWon gb (Color.other me) = true
      · simp only [if_pos hw]
        exact ⟨t, rfl⟩
      · simp only [if_neg hw, if_neg (hclock t), dif_pos hd0]
        exact ⟨t + 1, rfl⟩
  | succ n ihn =>
    intro depth hn gb a b t
    by_cases hd0 : depth ≤ 0
    · constructor
      · rw [minT, minP]
        by_cases hw : G.hasWon gb me = true
        · simp only [if_pos hw]
          exact ⟨t, rfl⟩
        · simp only [if_neg hw, if_neg (hclock t), dif_pos hd0]
          exact ⟨t + 1, rfl⟩
      · rw [maxT, maxP]
        by_cases hw : G.hasWon gb (Color.other me) = true
        · simp only [if_pos hw]
          exact ⟨t, rfl⟩
        · simp only [if_neg hw, if_neg (hclock t), dif_pos hd0]
          exact ⟨t + 1, rfl⟩
    · have hdpos : 0 < depth := by omega
      have IH := fun (gb' : β) (a' b' : Int) (t' : Nat) =>
        ihn (depth - 1) (by omega) gb' a' b' t'
      have hminGo : ∀ (hd : 0 < depth) (l : List Nat) (a' bt : Int)
          (t' : Nat), ∃ t'',
          minGoT G me order clock timeout gb depth hd a' bt t' l =
            .ok (minGoP G me order gb depth hd a' bt l, t'') := by
        intro hd l
        induction l with
        | nil =>
          intro a' bt t'
          exact ⟨t', by rw [minGoT, minGoP]⟩
        | cons pos rest ihl =>
          intro a' bt t'
          rw [minGoT, minGoP]
          cases hp : G.placeStone gb pos (Color.other me) with
          | none => exact ihl a' bt t'
          | some clone =>
            simp only
            obtain ⟨t2, heq⟩ := (IH clone a' bt t').2
            rw [heq]
            simp only
            by_cases hcut : a' ≥
                (if maxP G me order clone (depth - 1) a' bt < bt then
                  maxP G me order clone (depth - 1) a' bt else bt)
            · simp only [if_pos hcut]
              exact ⟨t2, rfl⟩
            · simp only [if_neg hcut]
              exact ihl a' _ t2
      have hmaxGo : ∀ (hd : 0 < depth) (l : List Nat) (at' bt : Int)
          (t' : Nat), ∃ t'',
          maxGoT G me order clock timeout gb depth hd at' bt t' l =
            .ok (maxGoP G me order gb depth hd at' bt l, t'') := by
        intro hd l
        induction l with
        | nil =>
          intro at' bt t'
          exact ⟨t', by rw [maxGoT, maxGoP]⟩
        | cons pos rest ihl =>
          intro at' bt t'
          rw [maxGoT, maxGoP]
          cases hp : G.placeStone gb pos me with
          | none => exact ihl at' bt t'
          | some clone =>
            simp only
            obtain ⟨t2, heq⟩ := (IH clone at' bt t').1
            rw [heq]
            simp only
            by_cases hcut :
                (if minP G me order clone (depth - 1) at' bt > at' then
                  minP G me order clone (depth - 1) at' bt else at') ≥ bt
            · simp only [if_pos hcut]
              exact ⟨t2, rfl⟩
            · simp only [if_neg hcut]
              exact ihl _ bt t2
      constructor
      · rw [minT, minP]
        by_cases hw : G.hasWon gb me = true
        · simp only [if_pos hw]
          exact ⟨t, rfl⟩
        · simp only [if_neg hw, if_neg (hclock t), dif_neg hd0]
          exact hminGo _ order a b (t + 1)
      · rw [maxT, maxP]
        by_cases hw : G.hasWon gb (Color.other me) = true
        · simp only [if_pos hw]
          exact ⟨t, rfl⟩
        · simp only [if_neg hw, if_neg (hclock t), dif_neg hd0]
          exact hmaxGo _ order a b (t + 1)

/-- C5, counterexample: the deadline check is not the first thing a `min`
call does — the terminal-win check precedes it, so on a board the searching
player has already won, `min` returns a score even though the deadline has
already passed at entry (clock reads 1, deadline 0). -/
theorem c5_deadline_counterexample :
    minT (connect4 zeroScore) Color.white POSITION_ORDER (fun _ => 1) 0
      wonBoard 3 5 7 0 = .ok (WIN_SCORE * (3 + 1), 0) ∧
    (0 : ℚ) < (fun _ => (1 : ℚ)) 0 := by
  constructor
  · have hw : Board.hasWon wonBoard Color.white = true := by rfl
    rw [minT]
    simp only [connect4, hw, if_true]
  · norm_num

/-- C5, amended: a `min`/`max` call entered after the deadline raises the
cancellation signal provided its terminal-win check does not fire, and, for
the cache-decorated `min`/`max`, provided additionally the cache lookup
misses (a hit returns the cached score with no deadline check); the win
check precedes the deadline check in the source. -/
theorem c5_deadline_amended {β : Type} [DecidableEq β] (G : GameOps β)
    (me : Color) (order : List Nat) (clock : Nat → ℚ) (timeout : ℚ)
    (gb : β) (depth : Int) (alpha beta : Int) (t : Nat)
    (cache : HashedPlayer.Cache β) (hlate : timeout < clock t) :
    (G.hasWon gb me = false →
      minT G me order clock timeout gb depth alpha beta t = .error ()) ∧
    (G.hasWon gb (Color.other me) = false →
      maxT G me order clock timeout gb depth alpha beta t = .error ()) ∧
    (G.hasWon gb me = false →
      HashedPlayer.lookupC (cache.getD depth.toNat []) gb = none →
      HashedPlayer.min G me order clock timeout gb depth alpha beta t cache
        = .error ()) ∧
    (G.hasWon gb (Color.other me) = false →
      HashedPlayer.lookupC (cache.getD depth.toNat []) gb = none →
      HashedPlayer.max G me order clock timeout gb depth alpha beta t cache
        = .error ()) := by
  have hminS : G.hasWon gb me = false →
      HashedPlayer.minSuper G me order clock timeout gb depth alpha beta t
        cache = .error () := by
    intro hw
    rw [HashedPlayer.minSuper]
    simp only [hw, Bool.false_eq_true, if_false, if_pos hlate]
  have hmaxS : G.hasWon gb (Color.other me) = false →
      HashedPlayer.maxSuper G me order clock timeout gb depth alpha beta t
        cache = .error () := by
    intro hw
    rw [HashedPlayer.maxSuper]
    simp only [hw, Bool.false_eq_true, if_false, if_pos hlate]
  refine ⟨?_, ?_, ?_, ?_⟩
  · intro hw
    rw [minT]
    simp only [hw, Bool.false_eq_true, if_false, if_pos hlate]
  · intro hw
    rw [maxT]
    simp only [hw, Bool.false_eq_true, if_false, if_pos hlate]
  · intro hw hmiss
    rw [HashedPlayer.min]
    by_cases h0 : HashedPlayer.MIN_HASH_DEPTH ≤ depth
    · simp only [if_pos h0, hmiss, hminS hw]
    · simp only [if_neg h0, hminS hw]
  · intro hw hmiss
    rw [HashedPlayer.max]
    by_cases h0 : HashedPlayer.MIN_HASH_DEPTH ≤ depth
    · simp only [if_pos h0, hmiss, hmaxS hw]
    · simp only [if_neg h0, hmaxS hw]

/-- Witness for the amended C5: on the empty board with an expired deadline
and an empty cache, all four calls raise. -/
theorem c5_deadline_amended_witness :
    minT (connect4 zeroScore) Color.white POSITION_ORDER (fun _ => 1) 0
        Board.empty 3 5 7 0 = .error () ∧
    maxT (connect4 zeroScore) Color.white POSITION_ORDER (fun _ => 1) 0
        Board.empty 3 5 7 0 = .error () ∧
    HashedPlayer.min (connect4 zeroScore) Color.white POSITION_ORDER
        (fun _ => 1) 0 Board.empty 3 5 7 0 [] = .error () ∧
    HashedPlayer.max (connect4 zeroScore) Color.white POSITION_ORDER
        (fun _ => 1) 0 Board.empty 3 5 7 0 [] = .error () := by
  have h := c5_deadline_amended (connect4 zeroScore) Color.white
    POSITION_ORDER (fun _ => 1) 0 Board.empty 3 5 7 0 [] (by norm_num)
  exact ⟨h.1 (by rfl), h.2.1 (by rfl), h.2.2.1 (by rfl) (by rfl),
    h.2.2.2 (by rfl) (by rfl)⟩


/-- At non-positive depth, `minP` is the terminal-or-leaf value, independent
of the window. -/
theorem minP_of_depth_le_zero {β : Type} (G : GameOps β) (me : Color)
    (order : List Nat) (gb : β) (d : Int) (a b : Int) (hd : d ≤ 0) :
    minP G me order gb d a b =
      (if G.hasWon gb me then WIN_SCORE * (d + 1) else G.score gb d) := by
  rw [minP]
  by_cases hw : G.hasWon gb me = true
  · simp only [if_pos hw]
  · simp only [if_neg hw, dif_pos hd]

/-- The cache-decorated `min` at non-positive remaining depth, on a run with
no time pressure: it returns exactly the window-independent terminal-or-leaf
value, and it preserves the invariant that its depth slot only holds such
values. -/
theorem hmin_shallow_spec {β : Type} [DecidableEq β] (G : GameOps β)
    (me : Color) (order : List Nat) (clock : Nat → ℚ) (timeout : ℚ)
    (hclock : ∀ i, ¬ (timeout < clock i)) (d' : Int) (hd' : d' ≤ 0)
    (c : β) (al : Int) (t : Nat) (cache : HashedPlayer.Cache β)
    (hinv : ∀ p ∈ cache.getD d'.toNat [], p.2 =
      (if G.hasWon p.1 me then WIN_SCORE * (d' + 1) else G.score p.1 d')) :
    ∃ (t' : Nat) (cache' : HashedPlayer.Cache β),
      HashedPlayer.min G me order clock timeout c d' al BETA_INIT t cache =
        .ok ((if G.hasWon c me then WIN_SCORE * (d' + 1) else G.score c d'),
          t', cache') ∧
      ∀ p ∈ cache'.getD d'.toNat [], p.2 =
        (if G.hasWon p.1 me then WIN_SCORE * (d' + 1) else G.score p.1 d') := by
  have hsuper : ∃ (t' : Nat),
      HashedPlayer.minSuper G me order clock timeout c d' al BETA_INIT t
          cache =
        .ok ((if G.hasWon c me then WIN_SCORE * (d' + 1) else G.score c d'),
          t', cache) := by
    rw [HashedPlayer.minSuper]
    by_cases hw : G.hasWon c me = true
    · simp only [if_pos hw]
      exact ⟨t, rfl⟩
    · simp only [hw, Bool.false_eq_true, if_false, if_neg (hclock t),
        dif_pos hd']
      exact ⟨t + 1, rfl⟩
  obtain ⟨tS, hSeq⟩ := hsuper
  rw [HashedPlayer.min]
  by_cases h0 : HashedPlayer.MIN_HASH_DEPTH ≤ d'
  · simp only [if_pos h0]
    cases hl : HashedPlayer.lookupC (cache.getD d'.toNat []) c with
    | some s =>
      have hs : s = (if G.hasWon c me then WIN_SCORE * (d' + 1)
          else G.score c d') := by
        rw [HashedPlayer.lookupC] at hl
        obtain ⟨e, hfind, hsnd⟩ := Option.map_eq_some'.mp hl
        have he1 : e.1 = c := by simpa using List.find?_some hfind
        have hmem := List.mem_of_find?_eq_some hfind
        have := hinv e hmem
        rw [← hsnd, this, he1]
      exact ⟨t, cache, by rw [hs], hinv⟩
    | none =>
      rw [hSeq]
      refine ⟨tS, _, rfl, ?_⟩
      rcases Nat.lt_or_ge d'.toNat cache.length with hlen | hlen
      · intro p hp
        simp only [List.getD, List.get?_eq_getElem?,
          List.getElem?_set_self hlen, Option.getD_some] at hp
        rcases List.mem_cons.mp hp with rfl | hp'
        · rfl
        · exact hinv p (by simpa [List.getD] using hp')
      · intro p hp
        rw [List.set_eq_of_length_le hlen] at hp
        exact hinv p hp
  · simp only [if_neg h0]
    rw [hSeq]
    exact ⟨tS, cache, rfl, hinv⟩

/-- The root loop of the cache-decorated search agrees with the pure root
loop when the remaining depth of the children is non-positive (root depth at
most 1) and the clock never expires. -/
theorem hrootGo_pure {β : Type} [DecidableEq β] (G : GameOps β) (me : Color)
    (order : List Nat) (clock : Nat → ℚ) (timeout : ℚ)
    (hclock : ∀ i, ¬ (timeout < clock i)) (gb : β) (depth : Int)
    (hdep : depth ≤ 1) :
    ∀ (l : List Nat) (al best : Int) (t : Nat)
      (cache : HashedPlayer.Cache β),
      (∀ p ∈ cache.getD (depth - 1).toNat [], p.2 =
        (if G.hasWon p.1 me then WIN_SCORE * (depth - 1 + 1)
          else G.score p.1 (depth - 1))) →
      ∃ (t' : Nat) (cache' : HashedPlayer.Cache β),
        HashedPlayer.rootGo G me order clock timeout gb depth al best t
            cache l =
          .ok (rootGoP G me order gb depth al best l, t', cache') := by
  intro l
  induction l with
  | nil =>
    intro al best t cache _
    exact ⟨t, cache, by rw [HashedPlayer.rootGo, rootGoP]⟩
  | cons pos rest ihl =>
    intro al best t cache hinv
    rw [HashedPlayer.rootGo, rootGoP]
    cases hp : G.placeStone gb pos me with
    | none => exact ihl al best t cache hinv
    | some clone =>
      simp only
      obtain ⟨t1, cache1, heq, hinv1⟩ := hmin_shallow_spec G me order clock
        timeout hclock (depth - 1) (by omega) clone al t cache hinv
      rw [heq, minP_of_depth_le_zero G me order clone (depth - 1) al
        BETA_INIT (by omega)]
      by_cases hgt : (if G.hasWon clone me then WIN_SCORE * (depth - 1 + 1)
          else G.score clone (depth - 1)) > al
      · simp only [if_pos hgt]
        exact ihl _ _ t1 cache1 hinv1
      · simp only [if_neg hgt]
        exact ihl al best t1 cache1 hinv1

/-- C2, amended: enabling the per-depth cache at `MIN_HASH_DEPTH = 0` on a
search with no time pressure yields the same move as the identical search
with caching disabled for root depths at most 1 (where cached values are
window-independent).  For deeper searches the property fails: the cache
stores the raw value computed under the current alpha-beta window, and a
value obtained under a narrower window (or a cut off bound) reused later can
change the move — the documented soundness caveat, realised in the
counterexample. -/
theorem c2_cache_amended {β : Type} [DecidableEq β] (G : GameOps β)
    (me : Color) (order : List Nat) (clock : Nat → ℚ) (timeout : ℚ)
    (hclock : ∀ i, ¬ (timeout < clock i)) (gb : β) (depth : Int) (t : Nat)
    (hdep : depth ≤ 1) :
    ∃ (t' : Nat) (cache' : HashedPlayer.Cache β),
      HashedPlayer.next_move_timeout G me order clock timeout gb depth t =
        .ok (next_move_timeoutP G me order gb depth, t', cache') := by
  rw [HashedPlayer.next_move_timeout, next_move_timeoutP]
  exact hrootGo_pure G me order clock timeout hclock gb depth hdep order
    ALPHA_INIT (-1) t (List.replicate (depth + 1).toNat [])
    (by simp [List.getD])

/-- Witness for the amended C2, at the transposition toy game with depth 1
(no time pressure: constant clock 0, deadline 1). -/
theorem c2_cache_amended_witness :
    ∃ (t' : Nat) (cache' : HashedPlayer.Cache Nat),
      HashedPlayer.next_move_timeout toyTrans Color.white POSITION_ORDER
          (fun _ => 0) 1 0 1 0 =
        .ok (next_move_timeoutP toyTrans Color.white POSITION_ORDER 0 1,
          t', cache') :=
  c2_cache_amended toyTrans Color.white POSITION_ORDER (fun _ => 0) 1
    (fun _ => by norm_num) 0 1 0 (by decide)

set_option maxRecDepth 8000 in
/-- C2, counterexample: on the transposition toy game (a conforming board
capability) at depth 3 with no time pressure and the same position order and
leaf evaluation, the cache-enabled search returns move 3 while the identical
search with caching disabled returns move 2.  The subtree of root move 3
stores for position 4 (at depth slot 1) the beta-cutoff bound 20 computed
under the narrowed window; the subtree of root move 2 reuses it under a
wider window where the true value is 100. -/
theorem c2_cache_counterexample :
    HashedPlayer.next_move_timeout toyTrans Color.white POSITION_ORDER
        (fun _ => 0) 1 0 3 0 =
      .ok (3, 6, [[(6, 20), (5, 20)], [(4, 20), (3, 20)],
        [(2, 20), (1, 20)], []]) ∧
    next_move_timeoutP toyTrans Color.white POSITION_ORDER 0 3 = 2 := by
  constructor
  · simp [HashedPlayer.next_move_timeout, HashedPlayer.rootGo,
      HashedPlayer.min, HashedPlayer.max, HashedPlayer.minSuper,
      HashedPlayer.maxSuper, HashedPlayer.minGo, HashedPlayer.maxGo,
      HashedPlayer.lookupC, HashedPlayer.MIN_HASH_DEPTH, toyTrans,
      transPlace, transScore, POSITION_ORDER, ALPHA_INIT, BETA_INIT,
      WIN_SCORE, Color.other, List.find?,
      show ¬ ((1 : ℚ) < 0) from by norm_num]
  · simp [next_move_timeoutP, rootGoP, minP, maxP, minGoP, maxGoP, toyTrans,
      transPlace, transScore, POSITION_ORDER, ALPHA_INIT, BETA_INIT,
      WIN_SCORE, Color.other]


namespace StoreModel

open AlphaBetaPlayer

variable {β : Type} [Inhabited β]

theorem agreeLow_refl (m : Nat) (s : List β) : agreeLow m s s :=
  fun _ _ => rfl

theorem agreeLow_trans {m : Nat} {s s1 s2 : List β}
    (h1 : agreeLow m s s1) (h2 : agreeLow m s1 s2) : agreeLow m s s2 :=
  fun i hi => (h2 i hi).trans (h1 i hi)

theorem agreeLow_append {m : Nat} {s : List β} (l' : List β)
    (h : m ≤ s.length) : agreeLow m s (s ++ l') := by
  intro i hi
  simp only [List.get?_eq_getElem?]
  rw [List.getElem?_append_left (by omega)]

theorem agreeLow_set {m : Nat} {s : List β} {i : Nat} (x : β)
    (h : m ≤ i) : agreeLow m s (s.set i x) := by
  intro j hj
  simp only [List.get?_eq_getElem?]
  rw [List.getElem?_set_ne (by omega)]

/-- An illegal placement leaves the store unchanged; a legal one mutates
only the addressed cell, never changing the store's length. -/
theorem placeS_frame (G : GameOps β) (s : List β) (i pos : Nat) (c : Color)
    {m : Nat} (hm : m ≤ i) :
    (placeS G s i pos c).2.length = s.length ∧
    agreeLow m s (placeS G s i pos c).2 := by
  rw [placeS]
  cases G.placeStone (s.getD i default) pos c with
  | none => exact ⟨rfl, agreeLow_refl m s⟩
  | some b' =>
    exact ⟨by simp, agreeLow_set b' hm⟩

/-- Frame property of the store-passing evaluator: a `min`/`max` call only
ever mutates cells it allocated itself — every cell present at entry (in
particular the board the call was given) is unchanged at exit, whether the
call returns a score or is cancelled. -/
theorem abS_frame (G : GameOps β) (me : Color) (order : List Nat)
    (clock : Nat → ℚ) (timeout : ℚ) :
    ∀ (n : Nat) (depth : Int), depth.toNat ≤ n →
    ∀ (m : Nat) (s : List β) (gbI : Nat) (a b : Int) (t : Nat),
      m ≤ s.length →
      (m ≤ ((minS G me order clock timeout s gbI depth a b t).2).length ∧
        agreeLow m s (minS G me order clock timeout s gbI depth a b t).2) ∧
      (m ≤ ((maxS G me order clock timeout s gbI depth a b t).2).length ∧
        agreeLow m s (maxS G me order clock timeout s gbI depth a b t).2) := by
  intro n
  induction n with
  | zero =>
    intro depth hn m s gbI a b t hm
    have hd0 : depth ≤ 0 := by omega
    constructor
    · rw [minS]
      by_cases hw : G.hasWon (s.getD gbI default) me = true
      · simp only [if_pos hw]
        exact ⟨hm, agreeLow_refl m s⟩
      · by_cases hc : timeout < clock t
        · simp only [if_neg hw, if_pos hc]
          exact ⟨hm, agreeLow_refl m s⟩
        · simp only [if_neg hw, if_neg hc, dif_pos hd0]
          exact ⟨hm, agreeLow_refl m s⟩
    · rw [maxS]
      by_cases hw : G.hasWon (s.getD gbI default) (Color.other me) = true
      · simp only [if_pos hw]
        exact ⟨hm, agreeLow_refl m s⟩
      · by_cases hc : timeout < clock t
        · simp only [if_neg hw, if_pos hc]
          exact ⟨hm, agreeLow_refl m s⟩
        · simp only [if_neg hw, if_neg hc, dif_pos hd0]
          exact ⟨hm, agreeLow_refl m s⟩
  | succ n ihn =>
    intro depth hn m s gbI a b t hm
    by_cases hd0 : depth ≤ 0
    · constructor
      · rw [minS]
        by_cases hw : G.hasWon (s.getD gbI default) me = true
        · simp only [if_pos hw]
          exact ⟨hm, agreeLow_refl m s⟩
        · by_cases hc : timeout < clock t
          · simp only [if_neg hw, if_pos hc]
            exact ⟨hm, agreeLow_refl m s⟩
          · simp only [if_neg hw, if_neg hc, dif_pos hd0]
            exact ⟨hm, agreeLow_refl m s⟩
      · rw [maxS]
        by_cases hw : G.hasWon (s.getD gbI default) (Color.other me) = true
        · simp only [if_pos hw]
          exact ⟨hm, agreeLow_refl m s⟩
        · by_cases hc : timeout < clock t
          · simp only [if_neg hw, if_pos hc]
            exact ⟨hm, agreeLow_refl m s⟩
          · simp only [if_neg hw, if_neg hc, dif_pos hd0]
            exact ⟨hm, agreeLow_refl m s⟩
    · have hdpos : 0 < depth := by omega
      have IHmin : ∀ (s' : List β) (gbI' : Nat) (a' b' : Int) (t' : Nat),
          m ≤ s'.length →
          m ≤ ((minS G me order clock timeout s' gbI' (depth - 1) a' b'
            t').2).length ∧
          agreeLow m s'
            (minS G me order clock timeout s' gbI' (depth - 1) a' b' t').2 :=
        fun s' gbI' a' b' t' hm' =>
          (ihn (depth - 1) (by omega) m s' gbI' a' b' t' hm').1
      have IHmax : ∀ (s' : List β) (gbI' : Nat) (a' b' : Int) (t' : Nat),
          m ≤ s'.length →
          m ≤ ((maxS G me order clock timeout s' gbI' (depth - 1) a' b'
            t').2).length ∧
          agreeLow m s'
            (maxS G me order clock timeout s' gbI' (depth - 1) a' b' t').2 :=
        fun s' gbI' a' b' t' hm' =>
          (ihn (depth - 1) (by omega) m s' gbI' a' b' t' hm').2
      have goMin : ∀ (hd : 0 < depth) (l : List Nat) (s1 : List β)
          (cloneI : Nat) (a' b' : Int) (t' : Nat), m ≤ s1.length →
          m ≤ cloneI →
          m ≤ ((minGoS G me order clock timeout s1 gbI cloneI depth hd a' b'
            t' l).2).length ∧
          agreeLow m s1
            (minGoS G me order clock timeout s1 gbI cloneI depth hd a' b' t'
              l).2 := by
        intro hd l
        induction l with
        | nil =>
          intro s1 cloneI a' b' t' hm1 hcl
          rw [minGoS]
          exact ⟨hm1, agreeLow_refl m s1⟩
        | cons pos rest ihl =>
          intro s1 cloneI a' b' t' hm1 hcl
          rw [minGoS]
          rcases hp : placeS G s1 cloneI pos (Color.other me) with ⟨fl, s2⟩
          have hplen : s2.length = s1.length := by
            have := (placeS_frame G s1 cloneI pos (Color.other me) hcl).1
            rw [hp] at this
            exact this
          have hpagree : agreeLow m s1 s2 := by
            have := (placeS_frame G s1 cloneI pos (Color.other me) hcl).2
            rw [hp] at this
            exact this
          cases fl with
          | false =>
            obtain ⟨hl1, ha1⟩ := ihl s2 cloneI a' b' t' (by omega) hcl
            exact ⟨hl1, agreeLow_trans hpagree ha1⟩
          | true =>
            simp only
            rcases hr : maxS G me order clock timeout s2 cloneI (depth - 1)
                a' b' t' with ⟨res, s3⟩
            have hl2 : m ≤ s3.length := by
              have := (IHmax s2 cloneI a' b' t' (by omega)).1
              rw [hr] at this
              simpa using this
            have ha2 : agreeLow m s2 s3 := by
              have := (IHmax s2 cloneI a' b' t' (by omega)).2
              rw [hr] at this
              simpa using this
            cases res with
            | error e => exact ⟨hl2, agreeLow_trans hpagree ha2⟩
            | ok sc =>
              obtain ⟨score, t2⟩ := sc
              simp only
              by_cases hcut : a' ≥ (if score < b' then score else b')
              · simp only [if_pos hcut]
                exact ⟨hl2, agreeLow_trans hpagree ha2⟩
              · simp only [if_neg hcut]
                rw [cloneS]
                obtain ⟨hl3, ha3⟩ := ihl (s3 ++ [s3.getD gbI default])
                  s3.length a' (if score < b' then score else b') t2
                  (by simp; omega) (by omega)
                exact ⟨hl3, agreeLow_trans hpagree (agreeLow_trans ha2
                  (agreeLow_trans (agreeLow_append _ (by omega)) ha3))⟩
      have goMax : ∀ (hd : 0 < depth) (l : List Nat) (s1 : List β)
          (cloneI : Nat) (a' b' : Int) (t' : Nat), m ≤ s1.length →
          m ≤ cloneI →
          m ≤ ((maxGoS G me order clock timeout s1 gbI cloneI depth hd a' b'
            t' l).2).length ∧
          agreeLow m s1
            (maxGoS G me order clock timeout s1 gbI cloneI depth hd a' b' t'
              l).2 := by
        intro hd l
        induction l with
        | nil =>
          intro s1 cloneI a' b' t' hm1 hcl
          rw [maxGoS]
          exact ⟨hm1, agreeLow_refl m s1⟩
        | cons pos rest ihl =>
          intro s1 cloneI a' b' t' hm1 hcl
          rw [maxGoS]
          rcases hp : placeS G s1 cloneI pos me with ⟨fl, s2⟩
          have hplen : s2.length = s1.length := by
            have := (placeS_frame G s1 cloneI pos me hcl).1
            rw [hp] at this
            exact this
          have hpagree : agreeLow m s1 s2 := by
            have := (placeS_frame G s1 cloneI pos me hcl).2
            rw [hp] at this
            exact this
          cases fl with
          | false =>
            obtain ⟨hl1, ha1⟩ := ihl s2 cloneI a' b' t' (by omega) hcl
            exact ⟨hl1, agreeLow_trans hpagree ha1⟩
          | true =>
            simp only
            rcases hr : minS G me order clock timeout s2 cloneI (depth - 1)
                a' b' t' with ⟨res, s3⟩
            have hl2 : m ≤ s3.length := by
              have := (IHmin s2 cloneI a' b' t' (by omega)).1
              rw [hr] at this
              simpa using this
            have ha2 : agreeLow m s2 s3 := by
              have := (IHmin s2 cloneI a' b' t' (by omega)).2
              rw [hr] at this
              simpa using this
            cases res with
            | error e => exact ⟨hl2, agreeLow_trans hpagree ha2⟩
            | ok sc =>
              obtain ⟨score, t2⟩ := sc
              simp only
              by_cases hcut : (if score > a' then score else a') ≥ b'
              · simp only [if_pos hcut]
                exact ⟨hl2, agreeLow_trans hpagree ha2⟩
              · simp only [if_neg hcut]
                rw [cloneS]
                obtain ⟨hl3, ha3⟩ := ihl (s3 ++ [s3.getD gbI default])
                  s3.length (if score > a' then score else a') b' t2
                  (by simp; omega) (by omega)
                exact ⟨hl3, agreeLow_trans hpagree (agreeLow_trans ha2
                  (agreeLow_trans (agreeLow_append _ (by omega)) ha3))⟩
      constructor
      · rw [minS]
        by_cases hw : G.hasWon (s.getD gbI default) me = true
        · simp only [if_pos hw]
          exact ⟨hm, agreeLow_refl m s⟩
        · by_cases hc : timeout < clock t
          · simp only [if_neg hw, if_pos hc]
            exact ⟨hm, agreeLow_refl m s⟩
          · simp only [if_neg hw, if_neg hc, dif_neg hd0]
            rw [cloneS]
            obtain ⟨hl1, ha1⟩ := goMin (by omega) order
              (s ++ [s.getD gbI default]) s.length a b (t + 1)
              (by simp; omega) (by omega)
            exact ⟨hl1, agreeLow_trans (agreeLow_append _ hm) ha1⟩
      · rw [maxS]
        by_cases hw : G.hasWon (s.getD gbI default) (Color.other me) = true
        · simp only [if_pos hw]
          exact ⟨hm, agreeLow_refl m s⟩
        · by_cases hc : timeout < clock t
          · simp only [if_neg hw, if_pos hc]
            exact ⟨hm, agreeLow_refl m s⟩
          · simp only [if_neg hw, if_neg hc, dif_neg hd0]
            rw [cloneS]
            obtain ⟨hl1, ha1⟩ := goMax (by omega) order
              (s ++ [s.getD gbI default]) s.length a b (t + 1)
              (by simp; omega) (by omega)
            exact ⟨hl1, agreeLow_trans (agreeLow_append _ hm) ha1⟩

/-- Frame property of the store-passing root loop. -/
theorem rootGoS_frame (G : GameOps β) (me : Color) (order : List Nat)
    (clock : Nat → ℚ) (timeout : ℚ) (gbI : Nat) (depth : Int) (m : Nat) :
    ∀ (l : List Nat) (s : List β) (cloneI : Nat) (alpha best : Int)
      (t : Nat), m ≤ s.length → m ≤ cloneI →
      m ≤ ((rootGoS G me order clock timeout s gbI cloneI depth alpha best t
        l).2).length ∧
      agreeLow m s
        (rootGoS G me order clock timeout s gbI cloneI depth alpha best t
          l).2 := by
  intro l
  induction l with
  | nil =>
    intro s cloneI alpha best t hm hcl
    exact ⟨hm, agreeLow_refl m s⟩
  | cons pos rest ihl =>
    intro s cloneI alpha best t hm hcl
    rw [rootGoS]
    rcases hp : placeS G s cloneI pos me with ⟨fl, s1⟩
    have hplen : s1.length = s.length := by
      have := (placeS_frame G s cloneI pos me hcl).1
      rw [hp] at this
      exact this
    have hpagree : agreeLow m s s1 := by
      have := (placeS_frame G s cloneI pos me hcl).2
      rw [hp] at this
      exact this
    cases fl with
    | false =>
      obtain ⟨hl1, ha1⟩ := ihl s1 cloneI alpha best t (by omega) hcl
      exact ⟨hl1, agreeLow_trans hpagree ha1⟩
    | true =>
      simp only
      rcases hr : minS G me order clock timeout s1 cloneI (depth - 1) alpha
          BETA_INIT t with ⟨res, s2⟩
      have hl2 : m ≤ s2.length := by
        have := ((abS_frame G me order clock timeout (depth - 1).toNat
          (depth - 1) le_rfl m s1 cloneI alpha BETA_INIT t (by omega)).1).1
        rw [hr] at this
        simpa using this
      have ha2 : agreeLow m s1 s2 := by
        have := ((abS_frame G me order clock timeout (depth - 1).toNat
          (depth - 1) le_rfl m s1 cloneI alpha BETA_INIT t (by omega)).1).2
        rw [hr] at this
        simpa using this
      cases res with
      | error e => exact ⟨hl2, agreeLow_trans hpagree ha2⟩
      | ok sc =>
        obtain ⟨score, t2⟩ := sc
        simp only
        by_cases hgt : score > alpha
        · simp only [if_pos hgt]
          rw [cloneS]
          obtain ⟨hl3, ha3⟩ := ihl (s2 ++ [s2.getD gbI default]) s2.length
            score (pos : Int) t2 (by simp; omega) (by omega)
          exact ⟨hl3, agreeLow_trans hpagree (agreeLow_trans ha2
            (agreeLow_trans (agreeLow_append _ (by omega)) ha3))⟩
        · simp only [if_neg hgt]
          rw [cloneS]
          obtain ⟨hl3, ha3⟩ := ihl (s2 ++ [s2.getD gbI default]) s2.length
            alpha best t2 (by simp; omega) (by omega)
          exact ⟨hl3, agreeLow_trans hpagree (agreeLow_trans ha2
            (agreeLow_trans (agreeLow_append _ (by omega)) ha3))⟩

/-- A store that agrees with `s` below `s.length` and is at least as long
restricts to `s` exactly. -/
theorem take_eq_of_agreeLow {s s' : List β}
    (h : agreeLow s.length s s') (hlen : s.length ≤ s'.length) :
    s'.take s.length = s := by
  apply List.ext_get?
  intro i
  by_cases hi : i < s.length
  · have hx := List.getElem?_take_of_lt (l := s') hi
    simp only [List.get?_eq_getElem?]
    rw [hx]
    have := h i hi
    simpa using this
  · rw [List.get?_eq_none.mpr (by simp; omega),
      List.get?_eq_none.mpr (by omega)]

/-- C7: neither the root search nor any `min`/`max` step mutates a board
that existed when it was called — restricting the final store to the cells
present at entry gives back exactly the input store, so the board passed in
(and every board of an enclosing or sibling branch, all allocated earlier)
is unchanged: every placement happens on a clone the call allocated
itself. -/
theorem c7_no_board_mutation (G : GameOps β) (me : Color)
    (order : List Nat) (clock : Nat → ℚ) (timeout : ℚ) (s : List β)
    (gbI : Nat) (depth : Int) (a b : Int) (t : Nat) :
    ((next_move_timeoutS G me order clock timeout s gbI depth t).2).take
        s.length = s ∧
    ((minS G me order clock timeout s gbI depth a b t).2).take s.length
      = s ∧
    ((maxS G me order clock timeout s gbI depth a b t).2).take s.length
      = s := by
  have hroot : s.length ≤
      ((next_move_timeoutS G me order clock timeout s gbI depth t).2).length
      ∧ agreeLow s.length s
        (next_move_timeoutS G me order clock timeout s gbI depth t).2 := by
    rw [next_move_timeoutS, cloneS]
    obtain ⟨hl, ha⟩ := rootGoS_frame G me order clock timeout gbI depth
      s.length order (s ++ [s.getD gbI default]) s.length ALPHA_INIT (-1) t
      (by simp) le_rfl
    exact ⟨hl, agreeLow_trans (agreeLow_append _ le_rfl) ha⟩
  have hmin := (abS_frame G me order clock timeout depth.toNat depth le_rfl
    s.length s gbI a b t le_rfl).1
  have hmax := (abS_frame G me order clock timeout depth.toNat depth le_rfl
    s.length s gbI a b t le_rfl).2
  exact ⟨take_eq_of_agreeLow hroot.2 hroot.1,
    take_eq_of_agreeLow hmin.2 hmin.1,
    take_eq_of_agreeLow hmax.2 hmax.1⟩

end StoreModel

end Claims
